import Mathlib

/-!
Verification of the byte-brewery AI review pipeline core against its
specification.

The Python sources are embedded shallowly:

* `src/aireview/engine.py` — response parsing (`Aireview.parseJsonResponse`),
  context assembly (`Aireview.buildContext`) and check orchestration
  (`Aireview.runCheck`);
* `src/aireview/core.py` — the legacy monolith's parser, context builder and
  `Config.from_dict` (`Aireview.coreParseJsonResponse`,
  `Aireview.coreBuildContext`, `Aireview.coreFromDict`);
* `src/aireview/services/config_loader.py` — `Aireview.loaderParse`;
* `src/aireview/services/providers.py` — `Aireview.getProvider` and the
  offline branches of the three `analyze` methods;
* `src/aireview/services/internal_commands.py` — `Aireview.filterFiles`.

Python's `json` module is modelled by an executable encoder/parser pair over
an exact JSON value type (`Aireview.Json`).  Modelling notes:

* JSON numbers are modelled as integers.  Float literals, `NaN` and
  `Infinity` are outside the model (floating point is out of scope).
* Python `dict`s built by `json.loads` are modelled as ordered key/value
  lists kept verbatim; lookups (`Aireview.jget`) return the *last* binding
  for a key, matching the overwrite behaviour of repeated dict insertion.
* `str.upper`, `str.strip` and character classes are modelled at ASCII
  level; Unicode case tables are environment detail.
* A `\u` escape pair encoding a surrogate pair is decoded to the combined
  scalar exactly as Python does; a *lone* surrogate escape is rejected by
  the model (Python would build a lone-surrogate string, which `Char`
  cannot represent; the encoder never produces one).
* Logging / `print` side effects are dropped; external effects (shell
  commands, API calls, the file system, the patch manager) are passed in as
  explicit oracle functions, mirroring the constructor-injected
  dependencies of the Python classes.
-/

namespace Aireview

/-! ### Named delimiter characters of the JSON and Markdown syntax. -/

abbrev lbrace : Char := '\x7b'
abbrev rbrace : Char := '\x7d'
abbrev btick : Char := '\x60'

/-! ### Python string helpers -/

/-- ASCII whitespace as recognised by Python's `str.strip` and `re \s`. -/
def isPyWs (c : Char) : Bool :=
  c = ' ' || c = '\t' || c = '\n' || c = '\r' || c = Char.ofNat 11 || c = Char.ofNat 12

/-- Whitespace recognised by Python's `json` scanner (` \t\n\r`). -/
def isJWs (c : Char) : Bool :=
  c = ' ' || c = '\t' || c = '\n' || c = '\r'

def skipJWs (cs : List Char) : List Char := cs.dropWhile isJWs

def skipReWs (cs : List Char) : List Char := cs.dropWhile isPyWs

/-- Python `str.strip()` (ASCII whitespace model). -/
def pyStripL (cs : List Char) : List Char :=
  ((cs.dropWhile isPyWs).reverse.dropWhile isPyWs).reverse

def pyStrip (s : String) : String := String.mk (pyStripL s.data)

/-- Python `str.upper()` (ASCII model). -/
def pyUpper (s : String) : String := String.mk (s.data.map Char.toUpper)

/-- `needle ∈ haystack` as in Python's `in` for strings. -/
def containsL (hay pat : List Char) : Bool :=
  if pat.isPrefixOf hay then true
  else
    match hay with
    | [] => pat.isEmpty
    | _ :: t => containsL t pat

def pyContains (hay pat : String) : Bool := containsL hay.data pat.data

def startsWithL (hay pat : List Char) : Bool := pat.isPrefixOf hay

def pyStartsWith (hay pat : String) : Bool := startsWithL hay.data pat.data

/-- Drop `pat` from the front of `l` when it is literally there. -/
def dropStart : List Char → List Char → Option (List Char)
  | [], l => some l
  | _ :: _, [] => none
  | p :: ps, c :: cs => if c = p then dropStart ps cs else none

/-- Python `str.find(ch)`: index of the first occurrence, `none` for `-1`. -/
def findIdx (cs : List Char) (ch : Char) : Option Nat :=
  match cs with
  | [] => none
  | c :: t => if c = ch then some 0 else (findIdx t ch).map (· + 1)

/-- Python `str.rfind(ch)`: index of the last occurrence, `none` for `-1`. -/
def rfindIdx (cs : List Char) (ch : Char) : Option Nat :=
  match findIdx cs.reverse ch with
  | none => none
  | some k => some (cs.length - 1 - k)

/-! ### The JSON value model (`json` module) -/

inductive Json where
  | null : Json
  | bool : Bool → Json
  | num : Int → Json
  | str : String → Json
  | arr : List Json → Json
  | obj : List (String × Json) → Json

/-- Python `dict.get` on an object built by repeated insertion: the *last*
binding for a key wins, absent keys give `none`. -/
def jget (kvs : List (String × Json)) (k : String) : Option Json :=
  kvs.foldl (fun acc kv => if kv.1 = k then some kv.2 else acc) none

/-! #### Encoding (`json.dumps`, default options: `ensure_ascii=True`,
separators `", "` and `": "`, lowercase `\uXXXX` hex). -/

def hexDigit (n : Nat) : Char :=
  if n < 10 then Char.ofNat (48 + n) else Char.ofNat (97 + (n - 10))

def hex4 (n : Nat) : List Char :=
  [hexDigit (n / 4096 % 16), hexDigit (n / 256 % 16), hexDigit (n / 16 % 16), hexDigit (n % 16)]

/-- One character as `json.dumps` emits it (ASCII output; named short escapes,
`\u00xx` for other control characters, surrogate pairs beyond the BMP). -/
def dumpChar (c : Char) : List Char :=
  if c = '"' then ['\\', '"']
  else if c = '\\' then ['\\', '\\']
  else if c = '\n' then ['\\', 'n']
  else if c = '\r' then ['\\', 'r']
  else if c = '\t' then ['\\', 't']
  else if c = Char.ofNat 8 then ['\\', 'b']
  else if c = Char.ofNat 12 then ['\\', 'f']
  else if c.toNat < 32 || c.toNat > 126 then
    if c.toNat < 65536 then '\\' :: 'u' :: hex4 c.toNat
    else
      let m := c.toNat - 65536
      ('\\' :: 'u' :: hex4 (55296 + m / 1024)) ++ ('\\' :: 'u' :: hex4 (56320 + m % 1024))
  else [c]

def dumpStr (s : String) : List Char :=
  '"' :: (s.data.flatMap dumpChar ++ ['"'])

/-- Decimal digit characters of `n`, most significant first, onto `tail`. -/
def natChars (n : Nat) (tail : List Char) : List Char :=
  if n < 10 then Char.ofNat (48 + n) :: tail
  else natChars (n / 10) (Char.ofNat (48 + n % 10) :: tail)
termination_by n
decreasing_by omega

/-- `str(int)`: optional sign then decimal digits. -/
def intChars (i : Int) : List Char :=
  if i < 0 then '-' :: natChars i.natAbs [] else natChars i.natAbs []

mutual
def dump : Json → List Char
  | .null => "null".data
  | .bool true => "true".data
  | .bool false => "false".data
  | .num i => intChars i
  | .str s => dumpStr s
  | .arr es => '[' :: (dumpElems es ++ [']'])
  | .obj ms => lbrace :: (dumpItems ms ++ [rbrace])
def dumpElems : List Json → List Char
  | [] => []
  | e :: es => dump e ++ dumpElemsTail es
def dumpElemsTail : List Json → List Char
  | [] => []
  | e :: es => ',' :: ' ' :: (dump e ++ dumpElemsTail es)
def dumpItems : List (String × Json) → List Char
  | [] => []
  | (k, v) :: ms => dumpStr k ++ ':' :: ' ' :: (dump v ++ dumpItemsTail ms)
def dumpItemsTail : List (String × Json) → List Char
  | [] => []
  | (k, v) :: ms => ',' :: ' ' :: (dumpStr k ++ ':' :: ' ' :: (dump v ++ dumpItemsTail ms))
end

def dumps (j : Json) : String := String.mk (dump j)

/-! #### Decoding (`json.loads`, strict mode) -/

def hexVal (c : Char) : Option Nat :=
  if 48 ≤ c.toNat && c.toNat ≤ 57 then some (c.toNat - 48)
  else if 97 ≤ c.toNat && c.toNat ≤ 102 then some (c.toNat - 87)
  else if 65 ≤ c.toNat && c.toNat ≤ 70 then some (c.toNat - 55)
  else none

def hex4Val (a b c d : Char) : Option Nat := do
  let x ← hexVal a
  let y ← hexVal b
  let z ← hexVal c
  let w ← hexVal d
  return ((x * 16 + y) * 16 + z) * 16 + w

def escMap (c : Char) : Option Char :=
  if c = '"' then some '"'
  else if c = '\\' then some '\\'
  else if c = '/' then some '/'
  else if c = 'b' then some (Char.ofNat 8)
  else if c = 'f' then some (Char.ofNat 12)
  else if c = 'n' then some '\n'
  else if c = 'r' then some '\r'
  else if c = 't' then some '\t'
  else none

/-- One `\uXXXX` escape (the input starts after the `\u`): four hex digits,
with a high surrogate demanding an immediately following low-surrogate
escape, joined to one scalar as Python's `scanstring` does.  (A lone
surrogate escape is rejected, see module note.) -/
def scanUEsc (t2 : List Char) : Option (Char × List Char) :=
  match t2 with
  | a :: b :: c1 :: d :: t3 =>
    match hex4Val a b c1 d with
    | none => none
    | some n =>
      if 55296 ≤ n && n ≤ 56319 then
        match t3 with
        | e2 :: u2 :: a2 :: b2 :: c2 :: d2 :: t4 =>
          if e2 = '\\' && u2 = 'u' then
            match hex4Val a2 b2 c2 d2 with
            | none => none
            | some m =>
              if 56320 ≤ m && m ≤ 57343 then
                some (Char.ofNat (65536 + (n - 55296) * 1024 + (m - 56320)), t4)
              else none
          else none
        | _ => none
      else if 56320 ≤ n && n ≤ 57343 then none
      else some (Char.ofNat n, t3)
  | _ => none

/-- The body of a JSON string after its opening quote.  Python's strict
`scanstring`: raw control characters are rejected, escapes decode via
`escMap` and `scanUEsc`.  The fuel only serves the termination argument;
every step consumes at least one character, so any fuel above the input
length is enough. -/
def scanStr : Nat → List Char → List Char → Option (String × List Char)
  | 0, _, _ => none
  | _ + 1, [], _ => none
  | fuel + 1, c :: t, acc =>
    if c = '"' then some (String.mk acc.reverse, t)
    else if c = '\\' then
      match t with
      | [] => none
      | e :: t2 =>
        if e = 'u' then
          match scanUEsc t2 with
          | some (ch, t3) => scanStr fuel t3 (ch :: acc)
          | none => none
        else
          match escMap e with
          | some d => scanStr fuel t2 (d :: acc)
          | none => none
    else if c.toNat < 32 then none
    else scanStr fuel t (c :: acc)

def isDigitC (c : Char) : Bool := 48 ≤ c.toNat && c.toNat ≤ 57

def digitsVal (ds : List Char) : Nat :=
  ds.foldl (fun a c => a * 10 + (c.toNat - 48)) 0

/-- An unsigned JSON integer: `0 | [1-9][0-9]*` (Python's `NUMBER_RE`, integer
part; fraction and exponent are outside the model). -/
def scanNat (cs : List Char) : Option (Nat × List Char) :=
  match cs with
  | [] => none
  | c :: t =>
    if c = '0' then some (0, t)
    else if isDigitC c then
      let ds := t.takeWhile isDigitC
      some (digitsVal (c :: ds), t.dropWhile isDigitC)
    else none

def scanInt (cs : List Char) : Option (Int × List Char) :=
  match cs with
  | [] => none
  | c :: t =>
    if c = '-' then (scanNat t).map (fun p => (-(p.1 : Int), p.2))
    else (scanNat (c :: t)).map (fun p => ((p.1 : Int), p.2))

mutual
/-- One JSON value.  Leading whitespace is skipped here; Python's scanner
skips it at every call site instead, which is extensionally the same. -/
def scanVal : Nat → List Char → Option (Json × List Char)
  | 0, _ => none
  | fuel + 1, cs =>
    match skipJWs cs with
    | [] => none
    | c :: t =>
      if c = lbrace then
        match skipJWs t with
        | [] => none
        | c2 :: t2 =>
          if c2 = rbrace then some (.obj [], t2)
          else
            match scanItems fuel (c2 :: t2) with
            | some (ms, r) => some (.obj ms, r)
            | none => none
      else if c = '[' then
        match skipJWs t with
        | [] => none
        | c2 :: t2 =>
          if c2 = ']' then some (.arr [], t2)
          else
            match scanElems fuel (c2 :: t2) with
            | some (es, r) => some (.arr es, r)
            | none => none
      else if c = '"' then
        match scanStr (t.length + 1) t [] with
        | some (s, r) => some (.str s, r)
        | none => none
      else if c = 't' then
        match dropStart ['r', 'u', 'e'] t with
        | some r => some (.bool true, r)
        | none => none
      else if c = 'f' then
        match dropStart ['a', 'l', 's', 'e'] t with
        | some r => some (.bool false, r)
        | none => none
      else if c = 'n' then
        match dropStart ['u', 'l', 'l'] t with
        | some r => some (.null, r)
        | none => none
      else if c = '-' || isDigitC c then
        match scanInt (c :: t) with
        | some (i, r) => some (.num i, r)
        | none => none
      else none
/-- One-or-more comma-separated array elements; the closing `]` ends them. -/
def scanElems : Nat → List Char → Option (List Json × List Char)
  | 0, _ => none
  | fuel + 1, cs =>
    match scanVal fuel cs with
    | none => none
    | some (v, r) =>
      match skipJWs r with
      | ',' :: r2 =>
        match scanElems fuel r2 with
        | some (vs, r3) => some (v :: vs, r3)
        | none => none
      | c :: r2 => if c = ']' then some ([v], r2) else none
      | [] => none
/-- One-or-more `"key": value` members; the closing brace ends them. -/
def scanItems : Nat → List Char → Option (List (String × Json) × List Char)
  | 0, _ => none
  | fuel + 1, cs =>
    match skipJWs cs with
    | '"' :: r =>
      match scanStr (r.length + 1) r [] with
      | none => none
      | some (k, r1) =>
        match skipJWs r1 with
        | ':' :: r2 =>
          match scanVal fuel r2 with
          | none => none
          | some (v, r3) =>
            match skipJWs r3 with
            | ',' :: r4 =>
              match scanItems fuel r4 with
              | some (ms, r5) => some ((k, v) :: ms, r5)
              | none => none
            | c :: r4 => if c = rbrace then some ([(k, v)], r4) else none
            | [] => none
        | _ => none
    | _ => none
end

/-- `json.loads` on a character list: one value, then only whitespace may
remain (otherwise Python raises "Extra data"). -/
def loadsL (cs : List Char) : Option Json :=
  match scanVal (cs.length + 1) cs with
  | some (j, r) => if (skipJWs r).isEmpty then some j else none
  | none => none

def loads (s : String) : Option Json := loadsL s.data

/-! ### Response parsing (`engine.py`, `_parse_json_response` /
`_normalize_result`) -/

/-- The normalized verdict dictionary produced by `_normalize_result` /
strategy 4: a `status` string plus the raw `feedback` and `modified_files`
values. -/
structure NormResult where
  status : String
  feedback : Json
  modified_files : Json

/-- `_normalize_result`: `status` defaults to `"FAIL"` and is upper-cased,
`feedback` falls back to the legacy `reason` key then to `"No feedback"`,
`modified_files` defaults to `[]`.  A non-dict payload, or a non-string
`status`, raises `AttributeError` in Python (uncaught by the parser's
`except json.JSONDecodeError` handlers), modelled as `Except.error`. -/
def normalizeResult (data : Json) : Except String NormResult :=
  match data with
  | .obj kvs =>
    match (jget kvs "status").getD (.str "FAIL") with
    | .str s =>
      .ok
        { status := pyUpper s
          feedback := (jget kvs "feedback").getD ((jget kvs "reason").getD (.str "No feedback"))
          modified_files := (jget kvs "modified_files").getD (.arr []) }
    | _ => .error "AttributeError: status value has no attribute upper"
  | _ => .error "AttributeError: payload has no attribute get"

/-- Does `\s*`-then-three-backticks follow (the tail of the fenced-block
regex after the captured group)?  Greedy `\s*` then a literal fence is
equivalent to skipping all whitespace and requiring the fence, since no
whitespace character is a backtick. -/
def fenceFollows (r : List Char) : Bool :=
  startsWithL (skipReWs r) [btick, btick, btick]

/-- The lazy `(\{.*?\})` group body: scan for the *first* closing brace
whose tail completes the regex; characters before it join the group. -/
def lazyGroup (acc : List Char) (l : List Char) : Option (List Char) :=
  match l with
  | [] => none
  | c :: rest =>
    if c = rbrace && fenceFollows rest then some (lbrace :: (acc.reverse ++ [rbrace]))
    else lazyGroup (c :: acc) rest

/-- One anchor position of `re.search` for the Markdown-block pattern
(three backticks, optional `json`, `\s*`, the lazy brace group, `\s*`,
three backticks).  The greedy `(?:json)?` needs no backtracking: when
`json` is present but the rest fails, the empty alternative would demand a
brace where `j` stands and fail too. -/
def fencedAt (l : List Char) : Option (List Char) :=
  match dropStart [btick, btick, btick] l with
  | none => none
  | some l1 =>
    let l2 := match dropStart ['j', 's', 'o', 'n'] l1 with
      | some x => x
      | none => l1
    match skipReWs l2 with
    | c :: l4 => if c = lbrace then lazyGroup [] l4 else none
    | [] => none

/-- `re.search(r"...")`: the leftmost anchor that matches wins. -/
def fencedSearch : List Char → Option (List Char)
  | [] => none
  | c :: t =>
    match fencedAt (c :: t) with
    | some g => some g
    | none => fencedSearch t

/-- Strategy 3's slice: from the first brace to the last closing brace,
provided the latter comes strictly later. -/
def bruteSlice (cs : List Char) : Option (List Char) :=
  match findIdx cs lbrace, rfindIdx cs rbrace with
  | some si, some ei =>
    if ei > si then some ((cs.drop si).take (ei + 1 - si)) else none
  | _, _ => none

/-- `ReviewEngine._parse_json_response` (engine.py): whole-text JSON, then a
fenced Markdown block, then the first-brace-to-last-brace slice, then the
`MANUAL` fallback carrying the raw text.  Only `json.JSONDecodeError` is
caught between strategies; `AttributeError` from normalization escapes. -/
def parseJsonResponseL (cs : List Char) : Except String NormResult :=
  match loadsL cs with
  | some j => normalizeResult j
  | none =>
    match
      (match fencedSearch cs with
       | some g =>
         match loadsL g with
         | some j => some (normalizeResult j)
         | none => none
       | none => none) with
    | some r => r
    | none =>
      match bruteSlice cs with
      | some sub =>
        match loadsL sub with
        | some j => normalizeResult j
        | none => .ok ⟨"MANUAL", .str (String.mk cs), .arr []⟩
      | none => .ok ⟨"MANUAL", .str (String.mk cs), .arr []⟩

def parseJsonResponse (response : String) : Except String NormResult :=
  parseJsonResponseL response.data

/-- `ReviewEngine._parse_json_response` of the legacy monolith (core.py):
whole text, then the fenced block, then a keyword scan — `FAIL` anywhere in
the upper-cased text gives a `FAIL` dict, otherwise the text is *assumed to
pass*.  No normalization is applied to successful parses. -/
def coreParseJsonResponse (response : String) : Json :=
  match loadsL response.data with
  | some j => j
  | none =>
    match
      (match fencedSearch response.data with
       | some g => loadsL g
       | none => none) with
    | some j => j
    | none =>
      if containsL (pyUpper response).data "FAIL".data then
        .obj [("status", .str "FAIL"),
              ("reason", .str ("Could not parse JSON, but keyword FAIL found. Raw: "
                ++ String.mk (response.data.take 50)))]
      else
        .obj [("status", .str "PASS"),
              ("reason", .str ("Could not parse JSON, assumed PASS. Raw: "
                ++ String.mk (response.data.take 50)))]

/-! ### Domain model (`domain.py`) -/

/-- Python-dict lookup on an insertion-ordered association list: the last
binding wins (repeated assignment overwrites). -/
def aget {α : Type} (m : List (String × α)) (k : String) : Option α :=
  m.foldl (fun acc kv => if kv.1 = k then some kv.2 else acc) none

structure ContextDefinition where
  id : String
  tag : String
  cmd : String
deriving Repr

structure PromptDefinition where
  id : String
  text : String
deriving Repr

structure CheckDefinition where
  id : String
  prompt_id : String
  model : String
  context_ids : List String
  max_chars : Int
  include_patterns : List String
  exclude_patterns : List String
deriving Repr

structure Config where
  definitions : List (String × ContextDefinition)
  prompts : List (String × PromptDefinition)
  checks : List CheckDefinition

/-! ### Context assembly (`engine.py`, `ReviewEngine.build_context`) -/

/-- The tagged block appended to the buffer for one context's output. -/
def fmtBlock (tag output : String) : String :=
  "### Context: " ++ tag ++ "\n```text\n" ++ output ++ "\n```\n"

/-- The `CommandError` message of the engine's safety check. -/
def safetyMsg (cid : String) (outputLen total maxChars : Int) : String :=
  "SAFETY LIMIT EXCEEDED: Context '" ++ cid ++ "' generated " ++ toString outputLen
    ++ " chars. Total would be " ++ toString (total + outputLen) ++ ", but limit is "
    ++ toString maxChars ++ ". Review cannot proceed safely without full context."

/-- The loop of `build_context`: unresolved ids and blank outputs are
skipped, a `CommandError` from the runner propagates, and an output whose
*raw* length would push the running total past `max_chars` aborts the
check.  The formatted block is appended only after the raw-length check. -/
def buildContextGo (cfg : Config) (run : String → List String → List String → Except String String)
    (check : CheckDefinition) : List String → Int → List String → Except String String
  | [], _, buf => .ok (String.intercalate "\n" buf.reverse)
  | cid :: rest, total, buf =>
    match aget cfg.definitions cid with
    | none => buildContextGo cfg run check rest total buf
    | some d =>
      match run d.cmd check.include_patterns check.exclude_patterns with
      | .error e => .error e
      | .ok output =>
        if pyStrip output = "" then buildContextGo cfg run check rest total buf
        else
          if total + (output.length : Int) > check.max_chars then
            .error (safetyMsg cid (output.length : Int) total check.max_chars)
          else
            buildContextGo cfg run check rest (total + (output.length : Int))
              (fmtBlock d.tag output :: buf)

def buildContext (cfg : Config) (run : String → List String → List String → Except String String)
    (check : CheckDefinition) : Except String String :=
  buildContextGo cfg run check check.context_ids 0 []

/-! ### Legacy context assembly (`core.py`, `ReviewEngine.build_context`) -/

structure CoreCheck where
  id : String
  prompt_id : String
  model : String
  context_ids : List String
  max_chars : Int
deriving Repr

structure CoreConfig where
  definitions : List (String × ContextDefinition)
  prompts : List (String × PromptDefinition)
  checks : List CoreCheck

/-- The legacy loop: instead of aborting, an over-budget output is cut to
the remaining budget and suffixed with a truncation marker, and the loop
stops once the total reaches `max_chars`. -/
def coreBuildContextGo (defs : List (String × ContextDefinition))
    (run : String → Except String String) (maxChars : Int) :
    List String → Int → List String → Except String String
  | [], _, buf => .ok (String.intercalate "\n" buf.reverse)
  | cid :: rest, total, buf =>
    match aget defs cid with
    | none => coreBuildContextGo defs run maxChars rest total buf
    | some d =>
      match run d.cmd with
      | .error e => .error e
      | .ok output =>
        if pyStrip output = "" then coreBuildContextGo defs run maxChars rest total buf
        else
          let remaining := maxChars - total
          let output2 :=
            if (output.length : Int) > remaining then
              String.mk (output.data.take remaining.toNat) ++ "\n... [TRUNCATED]"
            else output
          let total2 := total + (output2.length : Int)
          let buf2 := fmtBlock d.tag output2 :: buf
          if total2 ≥ maxChars then .ok (String.intercalate "\n" buf2.reverse)
          else coreBuildContextGo defs run maxChars rest total2 buf2

def coreBuildContext (cfg : CoreConfig) (run : String → Except String String)
    (check : CoreCheck) : Except String String :=
  coreBuildContextGo cfg.definitions run check.max_chars check.context_ids 0 []

/-! ### Check orchestration (`engine.py`, `ReviewEngine.run_check`) -/

structure RunOutcome where
  result : Bool
  skipped : Bool
  provider_invoked : Bool
deriving Repr, DecidableEq

/-- The engine's injected collaborators: the command runner and — standing
for `provider_factory.get_provider(model).analyze(model, message)` — the
provider response.  Debug dumps and patch-file generation are output-only
side effects and are dropped. -/
structure EngineDeps where
  run : String → List String → List String → Except String String
  analyze : String → String → String

/-- `run_check` from the point where the context is settled: blank context
short-circuits to a skipped pass *before* the prompt text or the provider
factory is touched; otherwise the provider is consulted and the verdict's
status steers the result — only `FAIL` and `FIX` block. -/
def runCheckAfter (deps : EngineDeps) (check : CheckDefinition)
    (promptDef : Option PromptDefinition) (context : String) : Except String RunOutcome :=
  if pyStrip context = "" then .ok ⟨true, true, false⟩
  else
    match promptDef with
    | none => .error "AttributeError: NoneType has no attribute text"
    | some pd =>
      let fullMessage := pd.text ++ "\n\n" ++ context
      let rawResponse := deps.analyze check.model fullMessage
      match parseJsonResponseL rawResponse.data with
      | .error e => .error e
      | .ok r =>
        if r.status = "PASS" then .ok ⟨true, false, true⟩
        else if r.status = "FAIL" then .ok ⟨false, false, true⟩
        else if r.status = "FIX" then .ok ⟨false, false, true⟩
        else .ok ⟨true, false, true⟩

/-- `ReviewEngine.run_check`: find the check (unknown ids fail), apply the
manual-override size guard or build the context (a `CommandError` fails the
check without consulting the provider), then hand off to the verdict
logic. -/
def runCheck (cfg : Config) (deps : EngineDeps) (checkId : String)
    (overrideContext : Option String) : Except String RunOutcome :=
  match cfg.checks.find? (fun c => c.id = checkId) with
  | none => .ok ⟨false, false, false⟩
  | some check =>
    let promptDef := aget cfg.prompts check.prompt_id
    match overrideContext with
    | some oc =>
      if (oc.length : Int) > check.max_chars then .ok ⟨false, false, false⟩
      else runCheckAfter deps check promptDef oc
    | none =>
      match buildContext cfg deps.run check with
      | .error _ => .ok ⟨false, false, false⟩
      | .ok context => runCheckAfter deps check promptDef context

/-! ### Configuration loading: raw data (`config_loader.py` / `core.py`)

The raw configuration follows the documented schema (each entry's required
keys present with schema types); `extraKeys` carries any dictionary keys
beyond the schema fields, which is what the unknown-key validation
inspects. -/

inductive RawContext where
  | str : String → RawContext
  | list : List String → RawContext

structure RawDef where
  id : String
  tag : Option String
  cmd : String
  extraKeys : List String

structure RawPrompt where
  id : String
  text : Option String
  file : Option String
  extraKeys : List String

structure RawCheck where
  id : String
  prompt_id : Option String
  system_prompt : Option String
  model : Option String
  context : Option RawContext
  max_chars : Option Int
  include_patterns : Option (List String)
  exclude_patterns : Option (List String)
  extraKeys : List String

structure RawConfig where
  definitions : List RawDef
  prompts : List RawPrompt
  checks : List RawCheck

/-- The instruction appended when a prompt does not mention JSON. -/
def jsonInstr : String :=
  "\n\nIMPORTANT: Return your response in raw JSON format: \x7b\"status\": \"PASS\" | \"FAIL\", \"reason\": \"...\"\x7d"

def unknownKeysMsg (what : String) (unknown : List String) : String :=
  what ++ " has unknown keys: " ++ String.intercalate ", " unknown

/-! ### `ConfigLoader` (`config_loader.py`) -/

def loaderParseDefs : List RawDef → Except String (List (String × ContextDefinition))
  | [] => .ok []
  | d :: rest =>
    match d.extraKeys.filter (fun k => !(["id", "tag", "cmd"].contains k)) with
    | [] =>
      (loaderParseDefs rest).map
        (fun tl => (d.id, ⟨d.id, d.tag.getD d.id, d.cmd⟩) :: tl)
    | unknown => .error (unknownKeysMsg "Definition" unknown)

/-- `_resolve_prompt_text`: an unreadable `file` raises `ConfigError`
(unlike the legacy loader, which substitutes an error string). -/
def loaderPromptText (p : RawPrompt) (fs : String → Option String) : Except String String :=
  match p.file with
  | some path =>
    match fs path with
    | some txt => .ok txt
    | none => .error ("Failed to load prompt file '" ++ path ++ "'")
  | none => .ok (p.text.getD "")

def loaderParsePrompts (fs : String → Option String) :
    List RawPrompt → Except String (List (String × PromptDefinition))
  | [] => .ok []
  | p :: rest =>
    match p.extraKeys.filter (fun k => !(["id", "text", "file"].contains k)) with
    | [] =>
      match loaderPromptText p fs with
      | .error e => .error e
      | .ok t0 =>
        let text := if pyContains t0 "JSON" then t0 else t0 ++ jsonInstr
        (loaderParsePrompts fs rest).map (fun tl => (p.id, ⟨p.id, text⟩) :: tl)
    | unknown => .error (unknownKeysMsg "Prompt" unknown)

def loaderCheckValidKeys : List String :=
  ["id", "prompt_id", "model", "context", "max_chars", "system_prompt",
   "include_patterns", "exclude_patterns"]

/-- `_parse_checks`: inline `system_prompt`s are added to the prompt map
*verbatim* under a `inline_<check id>` key; a check with neither
`prompt_id` nor `system_prompt`, or a `prompt_id` missing from the map,
raises `ConfigError`.  The prompt map threads through the fold because
later checks may reference earlier inline prompts. -/
def loaderParseChecks :
    List RawCheck → List (String × PromptDefinition) →
    Except String (List CheckDefinition × List (String × PromptDefinition))
  | [], prompts => .ok ([], prompts)
  | c :: rest, prompts =>
    match c.extraKeys.filter (fun k => !(loaderCheckValidKeys.contains k)) with
    | [] =>
      let step : Option String × List (String × PromptDefinition) :=
        match c.prompt_id with
        | some pid => (some pid, prompts)
        | none =>
          match c.system_prompt with
          | some sp =>
            (some ("inline_" ++ c.id),
             prompts ++ [("inline_" ++ c.id, ⟨"inline_" ++ c.id, sp⟩)])
          | none => (none, prompts)
      match step.1 with
      | none => .error ("Check '" ++ c.id ++ "' is missing 'prompt_id' or 'system_prompt'.")
      | some pid =>
        if (aget step.2 pid).isNone then
          .error ("Check '" ++ c.id ++ "' references undefined prompt '" ++ pid ++ "'.")
        else
          let contextIds := match c.context with
            | none => []
            | some (.str s) => [s]
            | some (.list l) => l
          match loaderParseChecks rest step.2 with
          | .error e => .error e
          | .ok (tl, promptsOut) =>
            .ok (⟨c.id, pid, c.model.getD "gpt-3.5-turbo", contextIds,
                  c.max_chars.getD 16000, c.include_patterns.getD [],
                  c.exclude_patterns.getD []⟩ :: tl, promptsOut)
    | unknown => .error (unknownKeysMsg "Check" unknown)

def loaderValidateCtxIds (checkId : String) (defs : List (String × ContextDefinition)) :
    List String → Except String Unit
  | [] => .ok ()
  | cid :: rest =>
    if (aget defs cid).isSome then loaderValidateCtxIds checkId defs rest
    else
      let hint :=
        if cid = "push_diff" then
          " (You must define 'push_diff' in 'definitions' with cmd: 'internal:push_diff')"
        else ""
      .error ("Check '" ++ checkId ++ "' references unknown context ID '" ++ cid ++ "'" ++ hint)

def loaderValidateRefs (defs : List (String × ContextDefinition)) :
    List CheckDefinition → Except String Unit
  | [] => .ok ()
  | check :: rest =>
    match loaderValidateCtxIds check.id defs check.context_ids with
    | .error e => .error e
    | .ok _ => loaderValidateRefs defs rest

/-- `ConfigLoader._parse`: definitions, prompts, checks, then strict
reference validation. -/
def loaderParse (raw : RawConfig) (fs : String → Option String) : Except String Config :=
  match loaderParseDefs raw.definitions with
  | .error e => .error e
  | .ok defs =>
    match loaderParsePrompts fs raw.prompts with
    | .error e => .error e
    | .ok prompts =>
      match loaderParseChecks raw.checks prompts with
      | .error e => .error e
      | .ok (checks, promptsOut) =>
        match loaderValidateRefs defs checks with
        | .error e => .error e
        | .ok _ => .ok ⟨defs, promptsOut, checks⟩

/-! ### Legacy `Config.from_dict` (`core.py`) -/

def coreDefaultReviewerText : String :=
  "You are a code reviewer. Return JSON: \x7b\"status\": \"PASS\" | \"FAIL\", \"reason\": \"...\"\x7d"

/-- The legacy prompt-file fallback: a missing file becomes an error *text*,
not an error result. -/
def corePromptText (p : RawPrompt) (fs : String → Option String) : String :=
  match p.file with
  | some path => (fs path).getD "ERROR: Prompt file missing."
  | none => p.text.getD ""

def coreParsePrompts (fs : String → Option String) :
    List RawPrompt → Except String (List (String × PromptDefinition))
  | [] => .ok []
  | p :: rest =>
    match p.extraKeys.filter (fun k => !(["id", "text", "file"].contains k)) with
    | [] =>
      let t0 := corePromptText p fs
      let text := if pyContains t0 "JSON" then t0 else t0 ++ jsonInstr
      (coreParsePrompts fs rest).map (fun tl => (p.id, ⟨p.id, text⟩) :: tl)
    | unknown => .error (unknownKeysMsg "Prompt" unknown)

def coreCheckValidKeys : List String :=
  ["id", "prompt_id", "model", "context", "max_chars", "system_prompt"]

/-- The legacy check parser: the valid-key set lacks the filter-pattern
keys, and a check with neither `prompt_id` nor `system_prompt` receives the
implicit `basic_reviewer` prompt, synthesized on first use.  No
`prompt_id`-resolution check is performed. -/
def coreParseChecks :
    List RawCheck → List (String × PromptDefinition) →
    Except String (List CoreCheck × List (String × PromptDefinition))
  | [], prompts => .ok ([], prompts)
  | c :: rest, prompts =>
    let presentKeys :=
      c.extraKeys
        ++ (if c.include_patterns.isSome then ["include_patterns"] else [])
        ++ (if c.exclude_patterns.isSome then ["exclude_patterns"] else [])
    match presentKeys.filter (fun k => !(coreCheckValidKeys.contains k)) with
    | [] =>
      let step : String × List (String × PromptDefinition) :=
        match c.prompt_id with
        | some pid => (pid, prompts)
        | none =>
          match c.system_prompt with
          | some sp =>
            ("inline_" ++ c.id,
             prompts ++ [("inline_" ++ c.id, ⟨"inline_" ++ c.id, sp⟩)])
          | none =>
            ("basic_reviewer",
             if (aget prompts "basic_reviewer").isSome then prompts
             else prompts ++ [("basic_reviewer", ⟨"basic_reviewer", coreDefaultReviewerText⟩)])
      let contextIds := match c.context with
        | none => []
        | some (.str s) => [s]
        | some (.list l) => l
      match coreParseChecks rest step.2 with
      | .error e => .error e
      | .ok (tl, promptsOut) =>
        .ok (⟨c.id, step.1, c.model.getD "gpt-3.5-turbo", contextIds,
              c.max_chars.getD 16000⟩ :: tl, promptsOut)
    | unknown => .error (unknownKeysMsg "Check" unknown)

def coreValidateCtxIds (checkId : String) (defs : List (String × ContextDefinition)) :
    List String → Except String Unit
  | [] => .ok ()
  | cid :: rest =>
    if (aget defs cid).isSome then coreValidateCtxIds checkId defs rest
    else
      let hint :=
        if pyStartsWith cid "internal:" || pyStartsWith cid "@" then
          " (Did you mean to define a context with cmd: '" ++ cid ++ "'?)"
        else if cid = "push_diff" then
          " (You must define 'push_diff' in 'definitions' with cmd: 'internal:push_diff')"
        else ""
      .error ("Config Error: Check '" ++ checkId ++ "' references unknown context ID '"
        ++ cid ++ "'" ++ hint)

def coreValidateRefs (defs : List (String × ContextDefinition)) :
    List CoreCheck → Except String Unit
  | [] => .ok ()
  | check :: rest =>
    match coreValidateCtxIds check.id defs check.context_ids with
    | .error e => .error e
    | .ok _ => coreValidateRefs defs rest

/-- `Config.from_dict` of the legacy monolith.  Validation failures call
`sys.exit(1)` in Python; the model folds them into `Except.error`. -/
def coreFromDict (raw : RawConfig) (fs : String → Option String) : Except String CoreConfig :=
  match loaderParseDefs raw.definitions with
  | .error e => .error e
  | .ok defs =>
    match coreParsePrompts fs raw.prompts with
    | .error e => .error e
    | .ok prompts =>
      match coreParseChecks raw.checks prompts with
      | .error e => .error e
      | .ok (checks, promptsOut) =>
        match coreValidateRefs defs checks with
        | .error e => .error e
        | .ok _ => .ok ⟨defs, promptsOut, checks⟩

/-! ### Provider routing (`services/providers.py`) -/

inductive AdapterKind where
  | openai
  | anthropic
  | gemini
  | mock
deriving Repr, DecidableEq

/-- `ProviderFactory._registry` lookup, with `OpenAIProvider` as the
`dict.get` default. -/
def registryLookup (k : String) : AdapterKind :=
  if k = "openai" then .openai
  else if k = "anthropic" then .anthropic
  else if k = "gemini" then .gemini
  else if k = "mock" then .mock
  else .openai

/-- `_resolve_provider_key`: vendor prefix of the model name, defaulting to
OpenAI. -/
def resolveProviderKey (model : String) : String :=
  if pyStartsWith model "claude" then "anthropic"
  else if pyStartsWith model "gemini" then "gemini"
  else "openai"

/-- The factory's mutable state: the per-key instance cache plus a
construction counter.  Each constructed instance is identified by its
adapter class and a construction serial number, so "the same cached
instance" and "constructed at most once" are observable. -/
structure FactoryState where
  is_dry_run : Bool
  instances : List (String × (AdapterKind × Nat))
  next_ctor : Nat
deriving Repr, DecidableEq

def initFactory (dry : Bool) : FactoryState := ⟨dry, [], 0⟩

/-- `_get_instance`: return the cached instance, or construct (exactly
one `provider_cls()` call) and cache it. -/
def getInstance (key : String) (st : FactoryState) : (AdapterKind × Nat) × FactoryState :=
  match aget st.instances key with
  | some inst => (inst, st)
  | none =>
    let inst := (registryLookup key, st.next_ctor)
    (inst, ⟨st.is_dry_run, st.instances ++ [(key, inst)], st.next_ctor + 1⟩)

/-- `get_provider`: dry runs bypass routing to the mock; otherwise the
resolved vendor key selects the instance. -/
def getProvider (model : String) (st : FactoryState) : (AdapterKind × Nat) × FactoryState :=
  if st.is_dry_run then getInstance "mock" st
  else getInstance (resolveProviderKey model) st

/-- The state after a sequence of `get_provider` calls. -/
def applyCalls (st : FactoryState) (models : List String) : FactoryState :=
  models.foldl (fun s m => (getProvider m s).2) st

/-! ### Provider `analyze`, offline branch (`services/providers.py`)

Each adapter's constructor leaves `client = None` when the API key or
library is missing; `analyze` then returns a hand-written JSON `FAIL`
verdict instead of raising.  The live client is abstracted as an oracle
returning the backend's text or an exception message. -/

def openaiUnavailable : String :=
  "\x7b\"status\": \"FAIL\", \"reason\": \"OpenAI client not ready (Check OPENAI_API_KEY)\"\x7d"

def anthropicUnavailable : String :=
  "\x7b\"status\": \"FAIL\", \"reason\": \"Anthropic client not ready\"\x7d"

def geminiUnavailable : String :=
  "\x7b\"status\": \"FAIL\", \"reason\": \"Google GenAI client not ready (Check GOOGLE_API_KEY)\"\x7d"

def openaiAnalyze (client : Option (String → String → Except String String))
    (model fullMessage : String) : String :=
  match client with
  | none => openaiUnavailable
  | some api =>
    match api model fullMessage with
    | .ok content => content
    | .error e => dumps (.obj [("status", .str "FAIL"), ("reason", .str ("API Error: " ++ e))])

def anthropicAnalyze (client : Option (String → String → Except String String))
    (model fullMessage : String) : String :=
  match client with
  | none => anthropicUnavailable
  | some api =>
    match api model fullMessage with
    | .ok content => content
    | .error e =>
      dumps (.obj [("status", .str "FAIL"), ("reason", .str ("Anthropic API Error: " ++ e))])

def geminiAnalyze (client : Option (String → String → Except String String))
    (model fullMessage : String) : String :=
  match client with
  | none => geminiUnavailable
  | some api =>
    match api model fullMessage with
    | .ok content => content
    | .error e =>
      dumps (.obj [("status", .str "FAIL"), ("reason", .str ("Gemini API Error: " ++ e))])

/-! ### File filtering (`services/internal_commands.py`) -/

/-- A compiled token of an `fnmatch` pattern. -/
inductive GlobTok where
  | star
  | any
  | cls (negated : Bool) (body : List Char)
  | lit (c : Char)

def splitClassBody (acc : List Char) : List Char → Option (List Char × List Char)
  | [] => none
  | c :: rest =>
    if c = ']' then some (acc.reverse, rest) else splitClassBody (c :: acc) rest

/-- Parse a bracketed character class starting after `[`: optional `!`
negation, a first `]` is literal, and a missing closing bracket makes the
whole `[` literal (signalled by `none`). -/
def parseClass : List Char → Option (Bool × List Char × List Char)
  | '!' :: ']' :: t => (splitClassBody [']'] t).map (fun p => (true, p.1, p.2))
  | '!' :: t => (splitClassBody [] t).map (fun p => (true, p.1, p.2))
  | ']' :: t => (splitClassBody [']'] t).map (fun p => (false, p.1, p.2))
  | other => (splitClassBody [] other).map (fun p => (false, p.1, p.2))

theorem splitClassBody_shrinks (l : List Char) : ∀ (acc cls rest : List Char),
    splitClassBody acc l = some (cls, rest) → rest.length < l.length := by
  induction l with
  | nil => intro acc cls rest h; simp [splitClassBody] at h
  | cons c t ih =>
    intro acc cls rest h
    by_cases hc : c = ']'
    · rw [splitClassBody, if_pos hc] at h
      simp only [Option.some.injEq, Prod.mk.injEq] at h
      obtain ⟨-, h2⟩ := h
      subst h2
      simp only [List.length_cons]
      omega
    · rw [splitClassBody, if_neg hc] at h
      have := ih _ _ _ h
      simp only [List.length_cons]
      omega

theorem parseClass_shrinks (ps cls rest : List Char) (neg : Bool)
    (h : parseClass ps = some (neg, cls, rest)) : rest.length < ps.length + 1 := by
  rw [parseClass.eq_def] at h
  split at h
  all_goals
    rw [Option.map_eq_some'] at h
    obtain ⟨p, hp, hf⟩ := h
    have hlt := splitClassBody_shrinks _ _ _ _ hp
    cases hf
    simp only [List.length_cons] at hlt ⊢
    omega

/-- Compile an `fnmatch` pattern to tokens (the analogue of
`fnmatch.translate`). -/
def globTokens : List Char → List GlobTok
  | [] => []
  | '*' :: ps => .star :: globTokens ps
  | '?' :: ps => .any :: globTokens ps
  | '[' :: ps =>
    match h : parseClass ps with
    | some (neg, body, rest) => .cls neg body :: globTokens rest
    | none => .lit '[' :: globTokens ps
  | p :: ps => .lit p :: globTokens ps
termination_by ps => ps.length
decreasing_by
  all_goals simp
  all_goals try omega
  · exact Nat.lt_of_lt_of_le (parseClass_shrinks _ _ _ _ h) (by omega)

/-- Character-class membership: `a-b` ranges, otherwise literals.  (An
inverted range matches nothing; Python would reject the pattern when
compiling the regex.) -/
def classHit (c : Char) : List Char → Bool
  | a :: '-' :: b :: rest => (a ≤ c && c ≤ b) || classHit c rest
  | a :: rest => (c = a) || classHit c rest
  | [] => false

/-- Run compiled glob tokens over a file name (full-string match, `\Z`
anchored; `*` crosses path separators, as `fnmatch` does). -/
def globRun : List Char → List GlobTok → Bool
  | name, [] => name.isEmpty
  | name, .star :: ts =>
    globRun name ts ||
      (match name with
       | [] => false
       | _ :: ns => globRun ns (.star :: ts))
  | [], _ :: _ => false
  | n :: ns, .any :: ts => globRun ns ts
  | n :: ns, .cls neg body :: ts =>
    (if neg then !(classHit n body) else classHit n body) && globRun ns ts
  | n :: ns, .lit p :: ts => (n = p) && globRun ns ts
termination_by name ts => (ts.length, name.length)

/-- `fnmatch.fnmatch` (POSIX: `normcase` is the identity). -/
def fnmatch (name pat : String) : Bool := globRun name.data (globTokens pat.data)

/-- `InternalCommandHandler._filter_files`: the include gate (absent or
matched) then the exclude gate, preserving order. -/
def filterFiles : List String → List String → List String → List String
  | [], _, _ => []
  | f :: rest, inc, exc =>
    if !inc.isEmpty && !(inc.any (fun p => fnmatch f p)) then filterFiles rest inc exc
    else if exc.any (fun p => fnmatch f p) then filterFiles rest inc exc
    else f :: filterFiles rest inc exc

/-! ### Vocabulary used by the claim statements -/

/-- A remainder that cannot extend a just-scanned integer literal. -/
def numSafe : List Char → Bool
  | [] => true
  | c :: _ => !(isDigitC c)

def tripleTick : List Char := [btick, btick, btick]

/-- Does the text contain a fenced-block delimiter (three backticks)? -/
def hasTriple (l : List Char) : Bool := containsL l tripleTick

/-- Filler text for the embedded-JSON scenario: no braces and no
backticks. -/
def plainFiller (l : List Char) : Bool :=
  l.all (fun c => !(c = lbrace) && !(c = rbrace) && !(c = btick))

/-- The fenced presentation of a payload, as in the spec's scenario:
a ```json fence line, the payload, a closing fence. -/
def fencedWrap (s : List Char) : List Char :=
  (btick :: btick :: btick :: ['j', 's', 'o', 'n', '\n']) ++ s ++ ('\n' :: tripleTick)

/-- The raw (pre-formatting) character count of a list of command
outputs — the quantity `build_context` accounts against `max_chars`. -/
def rawTotal (outs : List (String × String)) : Int :=
  (outs.map (fun p => (p.2.length : Int))).sum

/-- The formatted blocks the engine would join for the given
(tag, output) pairs. -/
def joinedBlocks (outs : List (String × String)) : String :=
  String.intercalate "\n" (outs.map (fun p => fmtBlock p.1 p.2))

/-- A remainder constraint that only binds number payloads (their rendering
is the only one an adjacent character could extend). -/
def restOkFor : Json → List Char → Bool
  | .num _, rest => numSafe rest
  | _, _ => true

/-- Text free of backticks (so no fence can start inside it). -/
def noTick (l : List Char) : Bool := l.all (fun c => !(c = btick))

/-- The `status` entry of a verdict dictionary. -/
def statusOf : Json → Option Json
  | .obj kvs => jget kvs "status"
  | _ => none

/-- The factory cache invariant: every cached instance was built by the
registry class of its key. -/
def FactoryInv (st : FactoryState) : Prop :=
  ∀ k p, aget st.instances k = some p → p.1 = registryLookup k

/-! ## Lemmas

### Whitespace and scanning basics -/

theorem skipJWs_cons_not {c : Char} (h : isJWs c = false) (t : List Char) :
    skipJWs (c :: t) = c :: t := by
  simp +decide [skipJWs, List.dropWhile_cons, h]

theorem skipJWs_cons_ws {c : Char} (h : isJWs c = true) (t : List Char) :
    skipJWs (c :: t) = skipJWs t := by
  simp +decide [skipJWs, List.dropWhile_cons, h]

theorem scanVal_cons_ws {c : Char} (h : isJWs c = true) (f : Nat) (x : List Char) :
    scanVal (f + 1) (c :: x) = scanVal (f + 1) x := by
  rw [scanVal, scanVal, skipJWs_cons_ws h]

/-! ### String-codec inversion -/

theorem hexVal_hexDigit (d : Nat) (h : d < 16) : hexVal (hexDigit d) = some d := by
  interval_cases d <;> decide

theorem hex4Val_hex4 (n : Nat) (h : n < 65536) :
    hex4Val (hexDigit (n / 4096 % 16)) (hexDigit (n / 256 % 16))
      (hexDigit (n / 16 % 16)) (hexDigit (n % 16)) = some n := by
  rw [hex4Val]
  rw [hexVal_hexDigit _ (Nat.mod_lt _ (by omega)), hexVal_hexDigit _ (Nat.mod_lt _ (by omega)),
      hexVal_hexDigit _ (Nat.mod_lt _ (by omega)), hexVal_hexDigit _ (Nat.mod_lt _ (by omega))]
  have harith : ((n / 4096 % 16 * 16 + n / 256 % 16) * 16 + n / 16 % 16) * 16 + n % 16 = n := by
    omega
  simp [harith]

theorem char_range (c : Char) : c.toNat < 55296 ∨ (57343 < c.toNat ∧ c.toNat < 1114112) := by
  rcases c.valid with h | ⟨h1, h2⟩
  · left; exact h
  · right; exact ⟨h1, h2⟩

theorem scanUEsc_single (a b c1 d : Char) (n : Nat) (hx : hex4Val a b c1 d = some n)
    (hout : n < 55296 ∨ 57343 < n) (t : List Char) :
    scanUEsc (a :: b :: c1 :: d :: t) = some (Char.ofNat n, t) := by
  have hs1 : ¬ (55296 ≤ n && n ≤ 56319) = true := by simp; omega
  have hs2 : ¬ (56320 ≤ n && n ≤ 57343) = true := by simp; omega
  simp [scanUEsc, hx, hs1, hs2]

theorem scanUEsc_pair (a b c1 d a2 b2 c2 d2 : Char) (n m : Nat)
    (hx : hex4Val a b c1 d = some n) (hx2 : hex4Val a2 b2 c2 d2 = some m)
    (hn : 55296 ≤ n ∧ n ≤ 56319) (hm : 56320 ≤ m ∧ m ≤ 57343) (t : List Char) :
    scanUEsc (a :: b :: c1 :: d :: '\\' :: 'u' :: a2 :: b2 :: c2 :: d2 :: t)
      = some (Char.ofNat (65536 + (n - 55296) * 1024 + (m - 56320)), t) := by
  have hs1 : (55296 ≤ n && n ≤ 56319) = true := by simp; omega
  have hs2 : (56320 ≤ m && m ≤ 57343) = true := by simp; omega
  simp [scanUEsc, hx, hx2, hs1, hs2]

theorem scanStr_quote (f : Nat) (acc t : List Char) :
    scanStr (f + 1) ('"' :: t) acc = some (String.mk acc.reverse, t) := by
  rw [scanStr.eq_def]
  simp

theorem scanStr_esc (f : Nat) (e d : Char) (he : escMap e = some d) (hu : ¬ e = 'u')
    (acc t : List Char) :
    scanStr (f + 1) ('\\' :: e :: t) acc = scanStr f t (d :: acc) := by
  rw [scanStr.eq_def]
  simp [he, hu]

theorem scanStr_u (f : Nat) (t2 t3 : List Char) (ch : Char)
    (hesc : scanUEsc t2 = some (ch, t3)) (acc : List Char) :
    scanStr (f + 1) ('\\' :: 'u' :: t2) acc = scanStr f t3 (ch :: acc) := by
  rw [scanStr.eq_def]
  simp [hesc]

theorem scanStr_lit (f : Nat) (c : Char) (h1 : ¬ c = '"') (h2 : ¬ c = '\\')
    (h3 : ¬ c.toNat < 32) (acc t : List Char) :
    scanStr (f + 1) (c :: t) acc = scanStr f t (c :: acc) := by
  rw [scanStr.eq_def]
  simp [h1, h2, h3]

theorem scanStr_dumpChar (f : Nat) (c : Char) (acc rest : List Char) :
    scanStr (f + 1) (dumpChar c ++ rest) acc = scanStr f rest (c :: acc) := by
  by_cases h1 : c = '"'
  · subst h1
    rw [show dumpChar '"' = ['\\', '"'] from by decide]
    exact scanStr_esc f _ _ (by decide) (by decide) acc rest
  by_cases h2 : c = '\\'
  · subst h2
    rw [show dumpChar '\\' = ['\\', '\\'] from by decide]
    exact scanStr_esc f _ _ (by decide) (by decide) acc rest
  by_cases h3 : c = '\n'
  · subst h3
    rw [show dumpChar '\n' = ['\\', 'n'] from by decide]
    exact scanStr_esc f _ _ (by decide) (by decide) acc rest
  by_cases h4 : c = '\r'
  · subst h4
    rw [show dumpChar '\r' = ['\\', 'r'] from by decide]
    exact scanStr_esc f _ _ (by decide) (by decide) acc rest
  by_cases h5 : c = '\t'
  · subst h5
    rw [show dumpChar '\t' = ['\\', 't'] from by decide]
    exact scanStr_esc f _ _ (by decide) (by decide) acc rest
  by_cases h6 : c = Char.ofNat 8
  · subst h6
    rw [show dumpChar (Char.ofNat 8) = ['\\', 'b'] from by decide]
    exact scanStr_esc f _ _ (by decide) (by decide) acc rest
  by_cases h7 : c = Char.ofNat 12
  · subst h7
    rw [show dumpChar (Char.ofNat 12) = ['\\', 'f'] from by decide]
    exact scanStr_esc f _ _ (by decide) (by decide) acc rest
  by_cases h8 : c.toNat < 32 ∨ 126 < c.toNat
  · have hcond : (decide (c.toNat < 32) || decide (c.toNat > 126)) = true := by
      rcases h8 with h | h <;> simp [h]
    by_cases hbmp : c.toNat < 65536
    · -- basic-plane character: one \uXXXX escape
      have hout : c.toNat < 55296 ∨ 57343 < c.toNat := by
        rcases char_range c with h | h
        · exact Or.inl h
        · exact Or.inr h.1
      rw [dumpChar, if_neg h1, if_neg h2, if_neg h3, if_neg h4, if_neg h5, if_neg h6,
          if_neg h7, if_pos hcond, if_pos hbmp]
      simp only [hex4, List.cons_append, List.nil_append]
      rw [scanStr_u f _ _ _ (scanUEsc_single _ _ _ _ _ (hex4Val_hex4 _ hbmp) hout rest),
          Char.ofNat_toNat]
    · -- astral-plane character: a surrogate pair of \u escapes
      have hval2 : c.toNat < 1114112 := by
        rcases char_range c with h | h
        · omega
        · exact h.2
      rw [dumpChar, if_neg h1, if_neg h2, if_neg h3, if_neg h4, if_neg h5, if_neg h6,
          if_neg h7, if_pos hcond, if_neg hbmp]
      have hhiv : 55296 + (c.toNat - 65536) / 1024 < 65536 := by omega
      have hlov : 56320 + (c.toNat - 65536) % 1024 < 65536 := by omega
      simp only [hex4, List.cons_append, List.nil_append, List.append_assoc]
      rw [scanStr_u f _ _ _
            (scanUEsc_pair _ _ _ _ _ _ _ _ _ _ (hex4Val_hex4 _ hhiv) (hex4Val_hex4 _ hlov)
              (by omega) (by omega) rest)]
      have hjoin : 65536 + (55296 + (c.toNat - 65536) / 1024 - 55296) * 1024
          + (56320 + (c.toNat - 65536) % 1024 - 56320) = c.toNat := by omega
      rw [hjoin, Char.ofNat_toNat]
  · -- printable ASCII, emitted verbatim
    push_neg at h8
    have hcond : ¬ (decide (c.toNat < 32) || decide (c.toNat > 126)) = true := by
      simp
      omega
    rw [dumpChar, if_neg h1, if_neg h2, if_neg h3, if_neg h4, if_neg h5, if_neg h6,
        if_neg h7, if_neg hcond, List.singleton_append]
    exact scanStr_lit f c h1 h2 (by omega) acc rest

theorem dumpChar_ne_nil (c : Char) : (dumpChar c).length ≠ 0 := by
  rw [dumpChar]
  split_ifs <;> simp

theorem length_le_flatMap_dumpChar (cs : List Char) :
    cs.length ≤ (cs.flatMap dumpChar).length := by
  induction cs with
  | nil => simp
  | cons c t ih =>
    rw [List.flatMap_cons, List.length_append, List.length_cons]
    have := dumpChar_ne_nil c
    omega

theorem length_le_sum_dumpChar (cs : List Char) :
    cs.length ≤ (List.map (List.length ∘ dumpChar) cs).sum := by
  induction cs with
  | nil => simp
  | cons c t ih =>
    rw [List.map_cons, List.sum_cons, List.length_cons]
    have h := dumpChar_ne_nil c
    simp only [Function.comp_apply]
    omega

theorem scanStr_dumpBody (cs : List Char) : ∀ (fuel : Nat) (acc rest : List Char),
    cs.length < fuel →
    scanStr fuel (cs.flatMap dumpChar ++ '"' :: rest) acc
      = some (String.mk (acc.reverse ++ cs), rest) := by
  induction cs with
  | nil =>
    intro fuel acc rest hf
    obtain ⟨f, rfl⟩ : ∃ f, fuel = f + 1 := ⟨fuel - 1, by omega⟩
    rw [List.flatMap_nil, List.nil_append, scanStr_quote]
    simp
  | cons c t ih =>
    intro fuel acc rest hf
    obtain ⟨f, rfl⟩ : ∃ f, fuel = f + 1 := ⟨fuel - 1, by omega⟩
    rw [List.flatMap_cons, List.append_assoc, scanStr_dumpChar,
        ih f _ _ (by simpa using Nat.lt_of_succ_lt_succ hf)]
    simp

theorem scanStr_dumpStr (s : String) (fuel : Nat) (rest : List Char)
    (hf : s.data.length < fuel) :
    scanStr fuel (s.data.flatMap dumpChar ++ '"' :: rest) [] = some (s, rest) := by
  rw [scanStr_dumpBody _ _ _ _ hf]
  cases s
  simp

/-! ### Integer-codec inversion -/

theorem natChars_acc (n : Nat) : ∀ tail : List Char, natChars n tail = natChars n [] ++ tail := by
  induction n using Nat.strong_induction_on with
  | _ n ih =>
    intro tail
    rw [natChars.eq_def n tail, natChars.eq_def n []]
    by_cases hlt : n < 10
    · simp [hlt]
    · have hdiv : n / 10 < n := by omega
      simp only [if_neg hlt]
      rw [ih (n / 10) hdiv, ih (n / 10) hdiv [_]]
      simp

theorem natChars_last (n : Nat) :
    natChars n [] = (if n < 10 then [] else natChars (n / 10) [])
      ++ [Char.ofNat (48 + n % 10)] := by
  rw [natChars.eq_def]
  by_cases h : n < 10
  · have hmod : n % 10 = n := by omega
    simp [h, hmod]
  · simp only [if_neg h]
    exact natChars_acc (n / 10) [_]

theorem natChars_ne_nil (n : Nat) : natChars n [] ≠ [] := by
  rw [natChars_last]
  simp

theorem digitChar_val (k : Nat) (h : k < 10) :
    (Char.ofNat (48 + k)).toNat - 48 = k ∧ isDigitC (Char.ofNat (48 + k)) = true := by
  interval_cases k <;> exact ⟨by decide, by decide⟩

theorem natChars_digits (n : Nat) : ∀ c ∈ natChars n [], isDigitC c = true := by
  induction n using Nat.strong_induction_on with
  | _ n ih =>
    rw [natChars_last]
    intro c hc
    rw [List.mem_append] at hc
    rcases hc with h | h
    · by_cases h10 : n < 10
      · simp [h10] at h
      · exact ih (n / 10) (by omega) c (by simpa [h10] using h)
    · rw [List.mem_singleton] at h
      subst h
      exact (digitChar_val _ (Nat.mod_lt _ (by omega))).2

theorem digitsVal_natChars (n : Nat) : digitsVal (natChars n []) = n := by
  induction n using Nat.strong_induction_on with
  | _ n ih =>
    rw [natChars_last, digitsVal, List.foldl_append]
    by_cases h : n < 10
    · simp only [if_pos h, List.foldl_nil, List.foldl_cons]
      have := (digitChar_val (n % 10) (Nat.mod_lt _ (by omega))).1
      omega
    · simp only [if_neg h, List.foldl_cons, List.foldl_nil]
      have hrec := ih (n / 10) (by omega)
      rw [digitsVal] at hrec
      rw [hrec]
      have := (digitChar_val (n % 10) (Nat.mod_lt _ (by omega))).1
      omega

theorem natChars_head (n : Nat) :
    ∃ c t, natChars n [] = c :: t ∧ isDigitC c = true := by
  rcases h : natChars n [] with _ | ⟨c, t⟩
  · exact absurd h (natChars_ne_nil n)
  · exact ⟨c, t, rfl, natChars_digits n c (h ▸ List.mem_cons_self ..)⟩

theorem natChars_head_pos (n : Nat) (hn : n ≠ 0) :
    ∃ c t, natChars n [] = c :: t ∧ isDigitC c = true ∧ c ≠ '0' := by
  induction n using Nat.strong_induction_on with
  | _ n ih =>
    by_cases h : n < 10
    · refine ⟨Char.ofNat (48 + n), [], ?_, (digitChar_val n h).2, ?_⟩
      · rw [natChars.eq_def]
        simp [h]
      · interval_cases n
        · exact absurd rfl hn
        all_goals decide
    · obtain ⟨c, t, hrep, hdig, hnz⟩ := ih (n / 10) (by omega) (by omega)
      refine ⟨c, t ++ [Char.ofNat (48 + n % 10)], ?_, hdig, hnz⟩
      rw [natChars_last, if_neg h, hrep]
      simp

theorem takeWhile_digits (ds : List Char) (hds : ∀ c ∈ ds, isDigitC c = true)
    (rest : List Char) (hrest : numSafe rest = true) :
    List.takeWhile isDigitC (ds ++ rest) = ds
      ∧ List.dropWhile isDigitC (ds ++ rest) = rest := by
  constructor
  all_goals
    induction ds with
    | nil =>
      rcases rest with _ | ⟨c, t⟩
      · simp
      · rw [numSafe] at hrest
        simp at hrest
        simp [List.takeWhile_cons, List.dropWhile_cons, hrest]
    | cons d dt ih =>
      have hd : isDigitC d = true := hds d (by simp)
      simp only [List.cons_append, List.takeWhile_cons, List.dropWhile_cons, hd]
      simp [ih (fun c hc => hds c (by simp [hc]))]

theorem scanNat_natChars (n : Nat) (rest : List Char) (hrest : numSafe rest = true) :
    scanNat (natChars n [] ++ rest) = some (n, rest) := by
  by_cases hn : n = 0
  · subst hn
    have h0 : natChars 0 [] = ['0'] := by
      rw [natChars.eq_def, if_pos (by omega : (0 : Nat) < 10)]
    rw [h0]
    simp [scanNat]
  · obtain ⟨c, t, hrep, hdig, hnz⟩ := natChars_head_pos n hn
    have hall := natChars_digits n
    rw [hrep] at hall
    obtain ⟨htake, hdrop⟩ :=
      takeWhile_digits t (fun x hx => hall x (by simp [hx])) rest hrest
    have hval : digitsVal (c :: t) = n := by
      have h := digitsVal_natChars n
      rwa [hrep] at h
    rw [hrep, List.cons_append]
    simp only [scanNat]
    rw [if_neg hnz, if_pos hdig, htake, hdrop, hval]

theorem scanInt_intChars (i : Int) (rest : List Char) (hrest : numSafe rest = true) :
    scanInt (intChars i ++ rest) = some (i, rest) := by
  by_cases hneg : i < 0
  · rw [intChars, if_pos hneg, List.cons_append]
    simp only [scanInt]
    rw [if_pos trivial, scanNat_natChars _ _ hrest]
    have habs : -((i.natAbs : Nat) : Int) = i := by omega
    simp only [Option.map_some', habs]
  · obtain ⟨c, t, hrep, hdig⟩ := natChars_head i.natAbs
    have hnm : ¬ c = '-' := by
      intro hc
      subst hc
      exact absurd hdig (by decide)
    rw [intChars, if_neg hneg, hrep, List.cons_append]
    simp only [scanInt]
    rw [if_neg hnm, ← List.cons_append, ← hrep, scanNat_natChars _ _ hrest]
    have habs : ((i.natAbs : Nat) : Int) = i := by omega
    simp only [Option.map_some', habs]

/-! ### Head characters of rendered values, and whitespace invariance -/

/-- A digit character is none of the scanner's structural characters. -/
theorem digitC_facts (c : Char) (h : isDigitC c = true) :
    isJWs c = false ∧ ¬ c = lbrace ∧ ¬ c = '[' ∧ ¬ c = '"' ∧ ¬ c = 't' ∧ ¬ c = 'f'
      ∧ ¬ c = 'n' ∧ ¬ c = '-' ∧ ¬ c = ']' ∧ ¬ c = rbrace ∧ ¬ c = ',' := by
  refine ⟨?_, ?_, ?_, ?_, ?_, ?_, ?_, ?_, ?_, ?_, ?_⟩
  · rcases hb : isJWs c with _ | _
    · rfl
    · exfalso
      rw [isJWs] at hb
      simp only [Bool.or_eq_true, decide_eq_true_eq] at hb
      rcases hb with ((h1 | h1) | h1) | h1 <;> (subst h1; exact absurd h (by decide))
  all_goals (intro h1; subst h1; exact absurd h (by decide))

/-- Every rendered value starts with a non-whitespace character that is not
a digit-extender, closer, or separator. -/
theorem dump_head (j : Json) :
    ∃ c t, dump j = c :: t ∧ isJWs c = false ∧ ¬ c = ']' ∧ ¬ c = rbrace ∧ ¬ c = ',' := by
  cases j with
  | null => exact ⟨'n', _, rfl, by decide, by decide, by decide, by decide⟩
  | bool b =>
    cases b with
    | true => exact ⟨'t', _, rfl, by decide, by decide, by decide, by decide⟩
    | false => exact ⟨'f', _, rfl, by decide, by decide, by decide, by decide⟩
  | str s => exact ⟨'"', _, rfl, by decide, by decide, by decide, by decide⟩
  | arr es => exact ⟨'[', _, rfl, by decide, by decide, by decide, by decide⟩
  | obj ms => exact ⟨lbrace, _, rfl, by decide, by decide, by decide, by decide⟩
  | num i =>
    by_cases hneg : i < 0
    · refine ⟨'-', natChars i.natAbs [], ?_, by decide, by decide, by decide, by decide⟩
      rw [dump, intChars, if_pos hneg]
    · obtain ⟨c, t, hrep, hdig⟩ := natChars_head i.natAbs
      obtain ⟨hws, -, -, -, -, -, -, -, hc1, hc2, hc3⟩ := digitC_facts c hdig
      refine ⟨c, t, ?_, hws, hc1, hc2, hc3⟩
      rw [dump, intChars, if_neg hneg, hrep]

theorem dump_ne_nil (j : Json) : dump j ≠ [] := by
  obtain ⟨c, t, hrep, -⟩ := dump_head j
  simp [hrep]

theorem skipJWs_dump (j : Json) (x : List Char) :
    skipJWs (dump j ++ x) = dump j ++ x := by
  obtain ⟨c, t, hrep, hws, -⟩ := dump_head j
  rw [hrep, List.cons_append, skipJWs_cons_not hws]

theorem scanVal_ws (f : Nat) (c : Char) (h : isJWs c = true) (x : List Char) :
    scanVal f (c :: x) = scanVal f x := by
  cases f with
  | zero => rfl
  | succ f => exact scanVal_cons_ws h f x

theorem scanElems_ws (f : Nat) (c : Char) (h : isJWs c = true) (x : List Char) :
    scanElems f (c :: x) = scanElems f x := by
  cases f with
  | zero => rfl
  | succ f =>
    rw [scanElems, scanElems, scanVal_ws _ _ h]

theorem scanItems_ws (f : Nat) (c : Char) (h : isJWs c = true) (x : List Char) :
    scanItems f (c :: x) = scanItems f x := by
  cases f with
  | zero => rfl
  | succ f =>
    rw [scanItems, scanItems, skipJWs_cons_ws h]

theorem restOkFor_of_numSafe (j : Json) (rest : List Char) (h : numSafe rest = true) :
    restOkFor j rest = true := by
  cases j <;> simp [restOkFor, h]

theorem dumpElemsTail_cons (e : Json) (es : List Json) :
    dumpElemsTail (e :: es) = ',' :: ' ' :: dumpElems (e :: es) := rfl

theorem dumpItemsTail_cons (kv : String × Json) (ms : List (String × Json)) :
    dumpItemsTail (kv :: ms) = ',' :: ' ' :: dumpItems (kv :: ms) := by
  obtain ⟨k, v⟩ := kv
  rfl


/-! ### The full-value codec round trip -/

theorem dumpStr_reassoc (s : String) (x : List Char) :
    dumpStr s ++ x = '"' :: (s.data.flatMap dumpChar ++ '"' :: x) := by
  rw [dumpStr]
  simp

theorem numSafe_cons (c : Char) (h : isDigitC c = false) (t : List Char) :
    numSafe (c :: t) = true := by
  simp [numSafe, h]

mutual
theorem rt_val : ∀ (j : Json) (fuel : Nat) (rest : List Char),
    (dump j).length < fuel → restOkFor j rest = true →
    scanVal fuel (dump j ++ rest) = some (j, rest)
  | .null, fuel, rest, hf, _ => by
    obtain ⟨f, rfl⟩ : ∃ f, fuel = f + 1 := ⟨fuel - 1, by omega⟩
    rw [show dump Json.null ++ rest = 'n' :: 'u' :: 'l' :: 'l' :: rest from rfl, scanVal.eq_def]
    simp +decide [skipJWs, dropStart]
  | .bool true, fuel, rest, hf, _ => by
    obtain ⟨f, rfl⟩ : ∃ f, fuel = f + 1 := ⟨fuel - 1, by omega⟩
    rw [show dump (Json.bool true) ++ rest = 't' :: 'r' :: 'u' :: 'e' :: rest from rfl,
        scanVal.eq_def]
    simp +decide [skipJWs, dropStart]
  | .bool false, fuel, rest, hf, _ => by
    obtain ⟨f, rfl⟩ : ∃ f, fuel = f + 1 := ⟨fuel - 1, by omega⟩
    rw [show dump (Json.bool false) ++ rest = 'f' :: 'a' :: 'l' :: 's' :: 'e' :: rest from rfl,
        scanVal.eq_def]
    simp +decide [skipJWs, dropStart]
  | .num i, fuel, rest, hf, hok => by
    obtain ⟨f, rfl⟩ : ∃ f, fuel = f + 1 := ⟨fuel - 1, by omega⟩
    have hsafe : numSafe rest = true := by simpa [restOkFor] using hok
    by_cases hneg : i < 0
    · have hd : dump (Json.num i) ++ rest = '-' :: (natChars i.natAbs [] ++ rest) := by
        rw [dump, intChars, if_pos hneg]
        rfl
      rw [hd, scanVal.eq_def]
      have hint : scanInt ('-' :: (natChars i.natAbs [] ++ rest)) = some (i, rest) := by
        have h := scanInt_intChars i rest hsafe
        rwa [intChars, if_pos hneg, List.cons_append] at h
      simp +decide [skipJWs, hint]
    · obtain ⟨c, t, hrep, hdig⟩ := natChars_head i.natAbs
      obtain ⟨hws, hc1, hc2, hc3, hc4, hc5, hc6, -, -, -, -⟩ := digitC_facts c hdig
      have hd : dump (Json.num i) ++ rest = c :: (t ++ rest) := by
        rw [dump, intChars, if_neg hneg, hrep]
        rfl
      rw [hd, scanVal.eq_def]
      have hint : scanInt (c :: (t ++ rest)) = some (i, rest) := by
        have h := scanInt_intChars i rest hsafe
        rwa [intChars, if_neg hneg, hrep, List.cons_append] at h
      simp +decide [skipJWs, List.dropWhile_cons, hws, hc1, hc2, hc3, hc4, hc5, hc6, hdig, hint]
  | .str s, fuel, rest, hf, _ => by
    obtain ⟨f, rfl⟩ : ∃ f, fuel = f + 1 := ⟨fuel - 1, by omega⟩
    have hd : dump (Json.str s) ++ rest
        = '"' :: (s.data.flatMap dumpChar ++ '"' :: rest) := by
      rw [dump, dumpStr_reassoc]
    rw [hd, scanVal.eq_def]
    simp +decide [skipJWs]
    rw [scanStr_dumpStr s]
    have h2 := length_le_sum_dumpChar s.data
    have h3 : s.length = s.data.length := rfl
    omega
  | .arr [], fuel, rest, hf, _ => by
    obtain ⟨f, rfl⟩ : ∃ f, fuel = f + 1 := ⟨fuel - 1, by omega⟩
    rw [show dump (Json.arr []) ++ rest = '[' :: ']' :: rest from rfl, scanVal.eq_def]
    simp +decide [skipJWs]
  | .arr (e :: es), fuel, rest, hf, _ => by
    obtain ⟨f, rfl⟩ : ∃ f, fuel = f + 1 := ⟨fuel - 1, by omega⟩
    have hd : dump (Json.arr (e :: es)) ++ rest
        = '[' :: (dumpElems (e :: es) ++ ']' :: rest) := by
      rw [dump]
      simp
    obtain ⟨c, t, hrep, hws, hbr, -, -⟩ := dump_head e
    have hcons : dumpElems (e :: es) ++ ']' :: rest
        = c :: (t ++ (dumpElemsTail es ++ ']' :: rest)) := by
      rw [show dumpElems (e :: es) = dump e ++ dumpElemsTail es from rfl, hrep]
      simp
    have hfuel : (dumpElems (e :: es)).length + 1 < f := by
      have hlen : (dump (Json.arr (e :: es))).length
          = (dumpElems (e :: es)).length + 2 := by
        rw [dump]
        simp
      omega
    have hkey := rt_elems e es f rest hfuel
    rw [hd, scanVal.eq_def]
    rw [hcons] at hkey ⊢
    simp +decide [skipJWs, List.dropWhile_cons, hws, hbr, hkey]
  | .obj [], fuel, rest, hf, _ => by
    obtain ⟨f, rfl⟩ : ∃ f, fuel = f + 1 := ⟨fuel - 1, by omega⟩
    rw [show dump (Json.obj []) ++ rest = lbrace :: rbrace :: rest from rfl, scanVal.eq_def]
    simp +decide [skipJWs]
  | .obj ((k, v) :: ms), fuel, rest, hf, _ => by
    obtain ⟨f, rfl⟩ : ∃ f, fuel = f + 1 := ⟨fuel - 1, by omega⟩
    have hd : dump (Json.obj ((k, v) :: ms)) ++ rest
        = lbrace :: (dumpItems ((k, v) :: ms) ++ rbrace :: rest) := by
      rw [dump]
      simp
    have hfuel : (dumpItems ((k, v) :: ms)).length + 1 < f := by
      have hlen : (dump (Json.obj ((k, v) :: ms))).length
          = (dumpItems ((k, v) :: ms)).length + 2 := by
        rw [dump]
        simp
      omega
    have hkey := rt_items (k, v) ms f rest hfuel
    have hcons : dumpItems ((k, v) :: ms) ++ rbrace :: rest
        = '"' :: ((k.data.flatMap dumpChar)
            ++ ('"' :: ':' :: ' ' :: (dump v ++ (dumpItemsTail ms ++ rbrace :: rest)))) := by
      rw [show dumpItems ((k, v) :: ms)
            = dumpStr k ++ ':' :: ' ' :: (dump v ++ dumpItemsTail ms) from rfl,
          dumpStr]
      simp
    rw [hd, scanVal.eq_def]
    rw [hcons] at hkey ⊢
    simp +decide [skipJWs, List.dropWhile_cons, hkey]
termination_by j => sizeOf j
decreasing_by all_goals (simp; try omega)

theorem rt_elems : ∀ (e : Json) (es : List Json) (fuel : Nat) (rest : List Char),
    (dumpElems (e :: es)).length + 1 < fuel →
    scanElems fuel (dumpElems (e :: es) ++ ']' :: rest) = some (e :: es, rest)
  | e, [], fuel, rest, hf => by
    obtain ⟨f, rfl⟩ : ∃ f, fuel = f + 1 := ⟨fuel - 1, by omega⟩
    have hd : dumpElems (e :: []) ++ ']' :: rest = dump e ++ (']' :: rest) := by
      rw [show dumpElems (e :: []) = dump e ++ dumpElemsTail [] from rfl]
      simp [dumpElemsTail]
    have hfe : (dump e).length < f := by
      have hlen : (dumpElems (e :: [])).length = (dump e).length := by
        rw [show dumpElems (e :: []) = dump e ++ dumpElemsTail [] from rfl]
        simp [dumpElemsTail]
      omega
    have hv := rt_val e f (']' :: rest) hfe
      (restOkFor_of_numSafe _ _ (numSafe_cons _ (by decide) _))
    rw [hd, scanElems, hv]
    simp +decide [skipJWs, List.dropWhile_cons]
  | e, x :: xs, fuel, rest, hf => by
    obtain ⟨f, rfl⟩ : ∃ f, fuel = f + 1 := ⟨fuel - 1, by omega⟩
    have hd : dumpElems (e :: x :: xs) ++ ']' :: rest
        = dump e ++ (',' :: ' ' :: (dumpElems (x :: xs) ++ ']' :: rest)) := by
      rw [show dumpElems (e :: x :: xs) = dump e ++ dumpElemsTail (x :: xs) from rfl,
          dumpElemsTail_cons]
      simp
    have hlen : (dumpElems (e :: x :: xs)).length
        = (dump e).length + 2 + (dumpElems (x :: xs)).length := by
      rw [show dumpElems (e :: x :: xs) = dump e ++ dumpElemsTail (x :: xs) from rfl,
          dumpElemsTail_cons]
      simp
      omega
    have hfe : (dump e).length < f := by omega
    have hfx : (dumpElems (x :: xs)).length + 1 < f := by omega
    have hv := rt_val e f (',' :: ' ' :: (dumpElems (x :: xs) ++ ']' :: rest)) hfe
      (restOkFor_of_numSafe _ _ (numSafe_cons _ (by decide) _))
    have hrec := rt_elems x xs f rest hfx
    have hsp := scanElems_ws f ' ' (by decide) (dumpElems (x :: xs) ++ ']' :: rest)
    rw [hd, scanElems, hv]
    simp +decide [skipJWs, List.dropWhile_cons, hsp, hrec]
termination_by e es => sizeOf e + sizeOf es
decreasing_by all_goals (simp; try omega)

theorem rt_items : ∀ (kv : String × Json) (ms : List (String × Json)) (fuel : Nat)
    (rest : List Char),
    (dumpItems (kv :: ms)).length + 1 < fuel →
    scanItems fuel (dumpItems (kv :: ms) ++ rbrace :: rest) = some (kv :: ms, rest)
  | (k, v), [], fuel, rest, hf => by
    obtain ⟨f, rfl⟩ : ∃ f, fuel = f + 1 := ⟨fuel - 1, by omega⟩
    have hd : dumpItems ((k, v) :: []) ++ rbrace :: rest
        = '"' :: ((k.data.flatMap dumpChar)
            ++ ('"' :: ':' :: ' ' :: (dump v ++ rbrace :: rest))) := by
      rw [show dumpItems ((k, v) :: [])
            = dumpStr k ++ ':' :: ' ' :: (dump v ++ dumpItemsTail []) from rfl, dumpStr]
      simp [dumpItemsTail]
    have hlen : (dumpItems ((k, v) :: [])).length
        = (k.data.flatMap dumpChar).length + 4 + (dump v).length := by
      rw [show dumpItems ((k, v) :: [])
            = dumpStr k ++ ':' :: ' ' :: (dump v ++ dumpItemsTail []) from rfl, dumpStr]
      simp [dumpItemsTail]
      omega
    have hfv : (dump v).length < f := by omega
    have hkv := rt_val v f (rbrace :: rest) hfv
      (restOkFor_of_numSafe _ _ (numSafe_cons _ (by decide) _))
    have hvs := scanVal_ws f ' ' (by decide) (dump v ++ rbrace :: rest)
    rw [hd, scanItems]
    simp +decide [skipJWs, List.dropWhile_cons, hvs, hkv]
    rw [scanStr_dumpStr k]
    · simp +decide [List.dropWhile_cons, hvs, hkv]
    · have h2 := length_le_sum_dumpChar k.data
      have h3 : k.length = k.data.length := rfl
      omega
  | (k, v), m2 :: ms2, fuel, rest, hf => by
    obtain ⟨f, rfl⟩ : ∃ f, fuel = f + 1 := ⟨fuel - 1, by omega⟩
    have hd : dumpItems ((k, v) :: m2 :: ms2) ++ rbrace :: rest
        = '"' :: ((k.data.flatMap dumpChar)
            ++ ('"' :: ':' :: ' ' :: (dump v
                ++ (',' :: ' ' :: (dumpItems (m2 :: ms2) ++ rbrace :: rest))))) := by
      rw [show dumpItems ((k, v) :: m2 :: ms2)
            = dumpStr k ++ ':' :: ' ' :: (dump v ++ dumpItemsTail (m2 :: ms2)) from rfl,
          dumpItemsTail_cons, dumpStr]
      simp
    have hlen : (dumpItems ((k, v) :: m2 :: ms2)).length
        = (k.data.flatMap dumpChar).length + 6 + (dump v).length
            + (dumpItems (m2 :: ms2)).length := by
      rw [show dumpItems ((k, v) :: m2 :: ms2)
            = dumpStr k ++ ':' :: ' ' :: (dump v ++ dumpItemsTail (m2 :: ms2)) from rfl,
          dumpItemsTail_cons, dumpStr]
      simp
      omega
    have hfv : (dump v).length < f := by omega
    have hfm : (dumpItems (m2 :: ms2)).length + 1 < f := by omega
    have hkv := rt_val v f (',' :: ' ' :: (dumpItems (m2 :: ms2) ++ rbrace :: rest)) hfv
      (restOkFor_of_numSafe _ _ (numSafe_cons _ (by decide) _))
    have hrec := rt_items m2 ms2 f rest hfm
    have hvs := scanVal_ws f ' ' (by decide)
      (dump v ++ (',' :: ' ' :: (dumpItems (m2 :: ms2) ++ rbrace :: rest)))
    have hms := scanItems_ws f ' ' (by decide) (dumpItems (m2 :: ms2) ++ rbrace :: rest)
    rw [hd, scanItems]
    simp +decide [skipJWs, List.dropWhile_cons, hvs, hkv, hms, hrec]
    rw [scanStr_dumpStr k]
    · simp +decide [List.dropWhile_cons, hvs, hkv, hms, hrec]
    · have h2 := length_le_sum_dumpChar k.data
      have h3 : k.length = k.data.length := rfl
      omega
termination_by kv ms => sizeOf kv + sizeOf ms
decreasing_by all_goals (simp; try omega)
end

/-- `json.loads` recovers every dumped value: the codec round trip. -/
theorem loadsL_dump (j : Json) : loadsL (dump j) = some j := by
  rw [loadsL]
  have h := rt_val j ((dump j).length + 1) [] (by omega)
    (restOkFor_of_numSafe _ _ (by decide))
  rw [List.append_nil] at h
  rw [h]
  simp [skipJWs]

/-! ### Association-list lookup -/

theorem aget_foldl {α : Type} (k : String) :
    ∀ (m : List (String × α)) (acc : Option α),
    m.foldl (fun a kv => if kv.1 = k then some kv.2 else a) acc = (aget m k <|> acc) := by
  intro m
  induction m with
  | nil => intro acc; simp [aget]
  | cons kv t ih =>
    intro acc
    rw [List.foldl_cons, ih]
    rw [show aget (kv :: t) k
          = t.foldl (fun a p => if p.1 = k then some p.2 else a)
              (if kv.1 = k then some kv.2 else none) from rfl, ih]
    cases h : aget t k with
    | some v => simp
    | none =>
      by_cases hk : kv.1 = k
      · simp [hk]
      · simp [hk]

theorem aget_append {α : Type} (m m' : List (String × α)) (k : String) :
    aget (m ++ m') k = (aget m' k <|> aget m k) := by
  show (m ++ m').foldl _ none = _
  rw [List.foldl_append]
  exact aget_foldl k m' _

theorem aget_append_isSome {α : Type} (m m' : List (String × α)) (k : String)
    (h : (aget m k).isSome = true) : (aget (m ++ m') k).isSome = true := by
  rw [aget_append]
  cases hm : aget m' k <;> simp [h]

theorem aget_append_single {α : Type} (m : List (String × α)) (k : String) (v : α) :
    aget (m ++ [(k, v)]) k = some v := by
  rw [aget_append]
  simp [aget]

/-! ### Substring search -/

theorem containsL_of_isPrefixOf (hay pat : List Char) (h : pat.isPrefixOf hay = true) :
    containsL hay pat = true := by
  rw [containsL.eq_def]
  simp [h]

theorem containsL_suffix (pat : List Char) : ∀ (l w : List Char), w <:+ l →
    containsL w pat = true → containsL l pat = true := by
  intro l
  induction l with
  | nil =>
    intro w hw h
    rw [List.suffix_nil] at hw
    subst hw
    exact h
  | cons c t ih =>
    intro w hw h
    rcases List.suffix_cons_iff.mp hw with h1 | h2
    · subst h1; exact h
    · have ht := ih w h2 h
      rw [containsL.eq_def]
      split
      · rfl
      · exact ht

theorem hasTriple_cons_elim (c : Char) (t : List Char) (h : hasTriple (c :: t) = false) :
    tripleTick.isPrefixOf (c :: t) = false ∧ hasTriple t = false := by
  by_cases hp : tripleTick.isPrefixOf (c :: t) = true
  · rw [hasTriple, containsL, if_pos hp] at h
    cases h
  · refine ⟨eq_false_of_ne_true hp, ?_⟩
    rw [hasTriple, containsL, if_neg hp] at h
    exact h

theorem hasTriple_of_noTick : ∀ l : List Char, noTick l = true → hasTriple l = false := by
  intro l
  induction l with
  | nil => intro _; decide
  | cons c t ih =>
    intro h
    simp only [noTick, List.all_cons, Bool.and_eq_true] at h
    obtain ⟨hc, ht⟩ := h
    have hc' : ¬ c = btick := by simpa using hc
    have hp : tripleTick.isPrefixOf (c :: t) = false := by
      have hb : (btick == c) = false := beq_eq_false_iff_ne.mpr (fun hh => hc' hh.symm)
      simp [tripleTick, List.isPrefixOf, hb]
    rw [hasTriple, containsL, if_neg (by simp [hp])]
    exact ih (by simp [noTick, ht])

theorem noTick_head (c : Char) (t : List Char) (h : noTick (c :: t) = true) :
    (btick == c) = false := by
  simp only [noTick, List.all_cons, Bool.and_eq_true] at h
  exact beq_eq_false_iff_ne.mpr (fun hh => (by simpa using h.1 : ¬ c = btick) hh.symm)

/-- A fence delimiter cannot begin at a position whose three characters
straddle into backtick-free text. -/
theorem triple_prefix_append (s post : List Char)
    (hpre : tripleTick.isPrefixOf s = false) (hpost : noTick post = true) :
    tripleTick.isPrefixOf (s ++ post) = false := by
  match s with
  | [] =>
    cases post with
    | nil => decide
    | cons p ps => simp [tripleTick, List.isPrefixOf, noTick_head p ps hpost]
  | [a] =>
    cases post with
    | nil => simp [tripleTick, List.isPrefixOf]
    | cons p ps => simp [tripleTick, List.isPrefixOf, noTick_head p ps hpost]
  | [a, b] =>
    cases post with
    | nil => simp [tripleTick, List.isPrefixOf]
    | cons p ps => simp [tripleTick, List.isPrefixOf, noTick_head p ps hpost]
  | a :: b :: c :: t =>
    simpa [tripleTick, List.isPrefixOf] using hpre

theorem hasTriple_append (s post : List Char) (hs : hasTriple s = false)
    (hpost : noTick post = true) : hasTriple (s ++ post) = false := by
  induction s with
  | nil => simpa using hasTriple_of_noTick post hpost
  | cons c t ih =>
    obtain ⟨hp, hs'⟩ := hasTriple_cons_elim c t hs
    have hp2 : tripleTick.isPrefixOf ((c :: t) ++ post) = false :=
      triple_prefix_append (c :: t) post hp hpost
    rw [List.cons_append, hasTriple, containsL,
        if_neg (by simp only [List.cons_append] at hp2
                   simp [← List.isPrefixOf_iff_prefix, hp2])]
    exact ih hs'

theorem hasTriple_prepend (pre x : List Char) (hpre : noTick pre = true)
    (hx : hasTriple x = false) : hasTriple (pre ++ x) = false := by
  induction pre with
  | nil => simpa using hx
  | cons c t ih =>
    have hc : (btick == c) = false := noTick_head c t hpre
    have hp : tripleTick.isPrefixOf (c :: (t ++ x)) = false := by
      simp [tripleTick, List.isPrefixOf, hc]
    rw [List.cons_append, hasTriple, containsL, if_neg (by simp [hp])]
    exact ih (by simp only [noTick, List.all_cons, Bool.and_eq_true] at hpre ⊢; exact hpre.2)

/-! ### The fenced-block regex on well-behaved text -/

theorem dropWhile_head_false (p : Char → Bool) : ∀ (l : List Char) (c : Char) (t : List Char),
    List.dropWhile p l = c :: t → p c = false := by
  intro l
  induction l with
  | nil => intro c t h; simp at h
  | cons a l' ih =>
    intro c t h
    rw [List.dropWhile_cons] at h
    by_cases ha : p a = true
    · rw [if_pos ha] at h
      exact ih c t h
    · rw [if_neg ha] at h
      cases h
      exact eq_false_of_ne_true ha

theorem dropWhile_append_ne (p : Char → Bool) : ∀ (l r : List Char),
    List.dropWhile p l ≠ [] →
    List.dropWhile p (l ++ r) = List.dropWhile p l ++ r := by
  intro l
  induction l with
  | nil => intro r h; exact absurd rfl h
  | cons a l' ih =>
    intro r h
    rw [List.cons_append, List.dropWhile_cons]
    by_cases ha : p a = true
    · rw [List.dropWhile_cons, if_pos ha] at h
      rw [if_pos ha, ih r h,
          show List.dropWhile p (a :: l') = List.dropWhile p l' from by
            rw [List.dropWhile_cons, if_pos ha]]
    · rw [if_neg ha,
          show List.dropWhile p (a :: l') = a :: l' from by
            rw [List.dropWhile_cons, if_neg ha]]
      simp

theorem scanVal_btick (f : Nat) (t : List Char) : scanVal (f + 1) (btick :: t) = none := by
  rw [scanVal.eq_def]
  simp +decide [skipJWs, List.dropWhile_cons]

theorem loadsL_btick (t : List Char) : loadsL (btick :: t) = none := by
  rw [loadsL, show (btick :: t).length + 1 = t.length + 1 + 1 from by simp, scanVal_btick]

theorem dropStart_isPrefixOf : ∀ (pat l r : List Char),
    dropStart pat l = some r → pat.isPrefixOf l = true := by
  intro pat
  induction pat with
  | nil => intro l r _; cases l <;> rfl
  | cons p ps ih =>
    intro l r h
    cases l with
    | nil => simp [dropStart] at h
    | cons c cs =>
      rw [dropStart] at h
      by_cases hc : c = p
      · rw [if_pos hc] at h
        subst hc
        simp [List.isPrefixOf, ih cs r h]
      · rw [if_neg hc] at h
        cases h

theorem fencedSearch_none : ∀ l : List Char, hasTriple l = false → fencedSearch l = none := by
  intro l
  induction l with
  | nil => intro _; rfl
  | cons c t ih =>
    intro h
    obtain ⟨hp, ht⟩ := hasTriple_cons_elim c t h
    have hat : fencedAt (c :: t) = none := by
      cases hds : dropStart [btick, btick, btick] (c :: t) with
      | none => rw [fencedAt, hds]
      | some l1 =>
        exfalso
        have hpre := dropStart_isPrefixOf _ _ _ hds
        rw [show ([btick, btick, btick] : List Char) = tripleTick from rfl, hp] at hpre
        cases hpre
    rw [fencedSearch, hat]
    exact ih ht

/-- After an interior closing brace the regex tail cannot match: the text up
to the payload's final brace has no fence delimiter, and that brace (a
non-whitespace, non-backtick character) blocks the `\s*` from reaching the
closing fence. -/
theorem fenceFollows_false (s : List Char) (hs : hasTriple s = false)
    (hmem : rbrace ∈ s) : fenceFollows (s ++ '\n' :: tripleTick) = false := by
  have hne : List.dropWhile isPyWs s ≠ [] := by
    intro h0
    have hall := List.dropWhile_eq_nil_iff.mp h0 rbrace hmem
    simp +decide [isPyWs] at hall
  rw [fenceFollows, skipReWs, dropWhile_append_ne _ _ _ hne]
  cases hct : List.dropWhile isPyWs s with
  | nil => exact absurd hct hne
  | cons c t =>
    have hsuf : (c :: t) <:+ s := hct ▸ List.dropWhile_suffix isPyWs
    match t with
    | [] => simp +decide [startsWithL, tripleTick, List.isPrefixOf]
    | [d] => simp +decide [startsWithL, tripleTick, List.isPrefixOf]
    | d :: e :: t' =>
      by_cases hsw : tripleTick.isPrefixOf (c :: d :: e :: t' ++ '\n' :: tripleTick) = true
      · exfalso
        simp only [tripleTick, List.cons_append, List.isPrefixOf, Bool.and_eq_true,
          beq_iff_eq] at hsw
        obtain ⟨h1, h2, h3, -⟩ := hsw
        have hpre : tripleTick.isPrefixOf (c :: d :: e :: t') = true := by
          simp [tripleTick, List.isPrefixOf, ← h1, ← h2, ← h3]
        have := containsL_suffix tripleTick s _ hsuf (containsL_of_isPrefixOf _ _ hpre)
        rw [hasTriple] at hs
        rw [hs] at this
        exact Bool.false_ne_true this
      · simpa [startsWithL] using eq_false_of_ne_true hsw

/-- The lazy group stops exactly at the payload's final brace when the
payload has no interior fence delimiter. -/
theorem lazyGroup_last : ∀ (mid acc : List Char),
    hasTriple (mid ++ [rbrace]) = false →
    lazyGroup acc (mid ++ rbrace :: '\n' :: tripleTick)
      = some (lbrace :: (acc.reverse ++ (mid ++ [rbrace]))) := by
  intro mid
  induction mid with
  | nil =>
    intro acc h
    rw [List.nil_append, lazyGroup]
    simp +decide [fenceFollows, skipReWs, startsWithL, tripleTick, List.isPrefixOf]
  | cons c t ih =>
    intro acc h
    have h' : hasTriple (t ++ [rbrace]) = false :=
      (hasTriple_cons_elim c (t ++ [rbrace]) (by simpa using h)).2
    rw [List.cons_append, lazyGroup]
    have hcond : (decide (c = rbrace) && fenceFollows (t ++ rbrace :: '\n' :: tripleTick)) = false := by
      by_cases hc : c = rbrace
      · have hff : fenceFollows ((t ++ [rbrace]) ++ '\n' :: tripleTick) = false :=
          fenceFollows_false (t ++ [rbrace]) h' (by simp)
        rw [List.append_assoc, List.singleton_append] at hff
        simp [hff]
      · simp [hc]
    rw [if_neg (by simp [hcond])]
    rw [ih (c :: acc) h']
    simp

/-! ### The brute-force slice on embedded payloads -/

theorem findIdx_append_of_not_mem (ch : Char) : ∀ (pre rest : List Char), ch ∉ pre →
    findIdx (pre ++ rest) ch = (findIdx rest ch).map (· + pre.length) := by
  intro pre
  induction pre with
  | nil =>
    intro rest _
    cases o : findIdx rest ch <;> simp [o]
  | cons a pre' ih =>
    intro rest h
    have ha : ¬ a = ch := fun hh => h (hh ▸ List.mem_cons_self a pre')
    rw [List.cons_append, findIdx, if_neg ha, ih rest (fun hm => h (List.mem_cons_of_mem a hm))]
    cases o : findIdx rest ch <;> simp [o, Nat.add_assoc]

theorem plainFiller_noTick (l : List Char) (h : plainFiller l = true) : noTick l = true := by
  simp only [plainFiller, List.all_eq_true, Bool.and_eq_true] at h
  simp only [noTick, List.all_eq_true]
  exact fun c hc => (h c hc).2

theorem plainFiller_not_lbrace (l : List Char) (h : plainFiller l = true) : lbrace ∉ l := by
  intro hm
  simp only [plainFiller, List.all_eq_true, Bool.and_eq_true] at h
  have := (h lbrace hm).1.1
  simp at this

theorem plainFiller_not_rbrace (l : List Char) (h : plainFiller l = true) : rbrace ∉ l := by
  intro hm
  simp only [plainFiller, List.all_eq_true, Bool.and_eq_true] at h
  have := (h rbrace hm).1.2
  simp at this

theorem dump_obj_shape (ms : List (String × Json)) :
    dump (Json.obj ms) = lbrace :: (dumpItems ms ++ [rbrace]) := by
  rw [dump]

theorem fencedAt_wrap (mid : List Char)
    (h : hasTriple (lbrace :: (mid ++ [rbrace])) = false) :
    fencedAt (fencedWrap (lbrace :: (mid ++ [rbrace]))) = some (lbrace :: (mid ++ [rbrace])) := by
  have h' : hasTriple (mid ++ [rbrace]) = false :=
    (hasTriple_cons_elim _ _ h).2
  rw [show fencedWrap (lbrace :: (mid ++ [rbrace]))
        = btick :: btick :: btick :: 'j' :: 's' :: 'o' :: 'n' :: '\n' ::
            (lbrace :: ((mid ++ [rbrace]) ++ '\n' :: tripleTick)) from by
      simp [fencedWrap]]
  rw [fencedAt]
  simp +decide [dropStart, skipReWs, List.dropWhile_cons]
  rw [lazyGroup_last mid [] h']
  simp

theorem fencedSearch_wrap (mid : List Char)
    (h : hasTriple (lbrace :: (mid ++ [rbrace])) = false) :
    fencedSearch (fencedWrap (lbrace :: (mid ++ [rbrace])))
      = some (lbrace :: (mid ++ [rbrace])) := by
  have hw : fencedWrap (lbrace :: (mid ++ [rbrace]))
      = btick :: (btick :: btick :: 'j' :: 's' :: 'o' :: 'n' :: '\n' ::
          (lbrace :: ((mid ++ [rbrace]) ++ '\n' :: tripleTick))) := by
    simp [fencedWrap]
  rw [hw, fencedSearch, ← hw, fencedAt_wrap mid h]

theorem bruteSlice_embed (pre mid post : List Char)
    (hpre : lbrace ∉ pre) (hpost : rbrace ∉ post) :
    bruteSlice (pre ++ ((lbrace :: (mid ++ [rbrace])) ++ post))
      = some (lbrace :: (mid ++ [rbrace])) := by
  have h1 : findIdx (pre ++ ((lbrace :: (mid ++ [rbrace])) ++ post)) lbrace
      = some pre.length := by
    rw [findIdx_append_of_not_mem _ _ _ hpre, List.cons_append, findIdx, if_pos rfl]
    simp
  have h2 : rfindIdx (pre ++ ((lbrace :: (mid ++ [rbrace])) ++ post)) rbrace
      = some (pre.length + (mid.length + 1)) := by
    have hassoc : pre ++ ((lbrace :: (mid ++ [rbrace])) ++ post)
        = (pre ++ (lbrace :: (mid ++ [rbrace]))) ++ post :=
      (List.append_assoc _ _ _).symm
    have hBrev : (pre ++ (lbrace :: (mid ++ [rbrace]))).reverse
        = rbrace :: ((mid.reverse ++ [lbrace]) ++ pre.reverse) := by
      simp
    rw [rfindIdx, hassoc, List.reverse_append, hBrev,
        findIdx_append_of_not_mem _ _ _ (by simpa using hpost), findIdx, if_pos rfl]
    simp only [Option.map_some', Nat.zero_add, List.length_reverse, List.length_append,
      List.length_cons, List.length_nil]
    congr 1
    omega
  simp only [bruteSlice, h1, h2]
  rw [if_pos (by omega)]
  rw [List.drop_left pre _]
  rw [show pre.length + (mid.length + 1) + 1 - pre.length = mid.length + 2 from by omega]
  exact congrArg some (List.take_left' (by simp))

/-! ### The three presentations of an encoded verdict -/

theorem parse_whole (j : Json) : parseJsonResponseL (dump j) = normalizeResult j := by
  simp only [parseJsonResponseL, loadsL_dump]

theorem parse_fenced (ms : List (String × Json))
    (h : hasTriple (dump (Json.obj ms)) = false) :
    parseJsonResponseL (fencedWrap (dump (Json.obj ms))) = normalizeResult (Json.obj ms) := by
  have h0 : loadsL (fencedWrap (dump (Json.obj ms))) = none := by
    rw [show fencedWrap (dump (Json.obj ms))
          = btick :: (btick :: btick :: 'j' :: 's' :: 'o' :: 'n' :: '\n' ::
              (dump (Json.obj ms) ++ '\n' :: tripleTick)) from by simp [fencedWrap]]
    exact loadsL_btick _
  have h1 : fencedSearch (fencedWrap (dump (Json.obj ms))) = some (dump (Json.obj ms)) := by
    rw [dump_obj_shape] at h ⊢
    exact fencedSearch_wrap (dumpItems ms) h
  simp only [parseJsonResponseL, h0, h1, loadsL_dump]

theorem parse_embedded (ms : List (String × Json)) (pre post : List Char)
    (hpre : plainFiller pre = true) (hpost : plainFiller post = true)
    (hdv : hasTriple (dump (Json.obj ms)) = false)
    (hnone : loadsL (pre ++ (dump (Json.obj ms) ++ post)) = none) :
    parseJsonResponseL (pre ++ (dump (Json.obj ms) ++ post))
      = normalizeResult (Json.obj ms) := by
  have htext : hasTriple (pre ++ (dump (Json.obj ms) ++ post)) = false :=
    hasTriple_prepend _ _ (plainFiller_noTick _ hpre)
      (hasTriple_append _ _ hdv (plainFiller_noTick _ hpost))
  have h1 : fencedSearch (pre ++ (dump (Json.obj ms) ++ post)) = none :=
    fencedSearch_none _ htext
  have h2 : bruteSlice (pre ++ (dump (Json.obj ms) ++ post)) = some (dump (Json.obj ms)) := by
    rw [dump_obj_shape]
    exact bruteSlice_embed pre (dumpItems ms) post
      (plainFiller_not_lbrace _ hpre) (plainFiller_not_rbrace _ hpost)
  simp only [parseJsonResponseL, hnone, h1, h2, loadsL_dump]

/-! ### Context assembly: raw accounting and the safety abort -/

theorem rawTotal_nil : rawTotal [] = 0 := rfl

theorem rawTotal_cons (p : String × String) (l : List (String × String)) :
    rawTotal (p :: l) = (p.2.length : Int) + rawTotal l := by
  simp [rawTotal]

theorem rawTotal_nonneg : ∀ outs : List (String × String), 0 ≤ rawTotal outs := by
  intro outs
  induction outs with
  | nil => simp [rawTotal]
  | cons p l ih =>
    rw [rawTotal_cons]
    have : (0 : Int) ≤ (p.2.length : Int) := Int.ofNat_nonneg _
    omega

theorem buildContextGo_spec (cfg : Config)
    (run : String → List String → List String → Except String String)
    (check : CheckDefinition) : ∀ (ids : List String) (outs : List (String × String)),
    List.Forall₂ (fun cid p => ∃ d, aget cfg.definitions cid = some d ∧ d.tag = p.1 ∧
        run d.cmd check.include_patterns check.exclude_patterns = .ok p.2 ∧
        ¬ pyStrip p.2 = "") ids outs →
    ∀ (total : Int) (buf : List String), total ≤ check.max_chars →
      (total + rawTotal outs ≤ check.max_chars →
        buildContextGo cfg run check ids total buf
          = .ok (String.intercalate "\n"
              (buf.reverse ++ outs.map (fun p => fmtBlock p.1 p.2)))) ∧
      (total + rawTotal outs > check.max_chars →
        ∃ e, buildContextGo cfg run check ids total buf = .error e) := by
  intro ids outs hf
  induction hf with
  | nil =>
    intro total buf htot
    refine ⟨fun _ => by simp [buildContextGo], fun hgt => ?_⟩
    rw [rawTotal_nil] at hgt
    omega
  | @cons cid p rest outs' hd tl ih =>
    intro total buf htot
    obtain ⟨d, hag, htag, hrun, hblank⟩ := hd
    have hnn := rawTotal_nonneg outs'
    constructor
    · intro hle
      rw [rawTotal_cons] at hle
      have hnov : ¬ total + (p.2.length : Int) > check.max_chars := by omega
      rw [buildContextGo]
      simp only [hag, hrun]
      rw [if_neg hblank, if_neg hnov]
      rw [(ih (total + (p.2.length : Int)) (fmtBlock d.tag p.2 :: buf) (by omega)).1 (by omega)]
      rw [htag]
      simp
    · intro hgt
      rw [rawTotal_cons] at hgt
      by_cases hov : total + (p.2.length : Int) > check.max_chars
      · exact ⟨safetyMsg cid (p.2.length : Int) total check.max_chars,
          by rw [buildContextGo]; simp only [hag, hrun]; rw [if_neg hblank, if_pos hov]⟩
      · obtain ⟨e, he⟩ := (ih (total + (p.2.length : Int)) (fmtBlock d.tag p.2 :: buf)
          (by omega)).2 (by omega)
        exact ⟨e, by
          rw [buildContextGo]
          simp only [hag, hrun]
          rw [if_neg hblank, if_neg hov]
          exact he⟩

theorem buildContext_spec (cfg : Config)
    (run : String → List String → List String → Except String String)
    (check : CheckDefinition) (outs : List (String × String))
    (hf : List.Forall₂ (fun cid p => ∃ d, aget cfg.definitions cid = some d ∧ d.tag = p.1 ∧
        run d.cmd check.include_patterns check.exclude_patterns = .ok p.2 ∧
        ¬ pyStrip p.2 = "") check.context_ids outs) :
    (rawTotal outs ≤ check.max_chars →
        buildContext cfg run check = .ok (joinedBlocks outs)) ∧
    (0 ≤ check.max_chars → rawTotal outs > check.max_chars →
        ∃ e, buildContext cfg run check = .error e) := by
  have hnn := rawTotal_nonneg outs
  constructor
  · intro hle
    rw [buildContext,
        (buildContextGo_spec cfg run check check.context_ids outs hf 0 [] (by omega)).1
          (by omega)]
    simp [joinedBlocks]
  · intro hmax hgt
    exact (buildContextGo_spec cfg run check check.context_ids outs hf 0 []
      (by omega)).2 (by omega)

theorem buildContextGo_blank (cfg : Config)
    (run : String → List String → List String → Except String String)
    (check : CheckDefinition) : ∀ (ids : List String) (total : Int) (buf : List String),
    (∀ cid ∈ ids, ∀ d, aget cfg.definitions cid = some d →
        ∃ out, run d.cmd check.include_patterns check.exclude_patterns = .ok out ∧
          pyStrip out = "") →
    buildContextGo cfg run check ids total buf
      = .ok (String.intercalate "\n" buf.reverse) := by
  intro ids
  induction ids with
  | nil => intro total buf _; rfl
  | cons cid rest ih =>
    intro total buf h
    cases hag : aget cfg.definitions cid with
    | none =>
      rw [buildContextGo, hag]
      exact ih total buf (fun c hc => h c (List.mem_cons_of_mem cid hc))
    | some d =>
      obtain ⟨out, hrun, hblank⟩ := h cid (List.mem_cons_self cid rest) d hag
      rw [buildContextGo]
      simp only [hag, hrun]
      rw [if_pos hblank]
      exact ih total buf (fun c hc => h c (List.mem_cons_of_mem cid hc))

/-! ### Loader soundness: references resolve or loading fails -/

theorem isSome_of_not_isNone {α : Type} {o : Option α} (h : ¬ o.isNone = true) :
    o.isSome = true := by
  cases o with
  | none => simp at h
  | some v => rfl

theorem loaderParseChecks_resolve : ∀ (cs : List RawCheck)
    (prompts : List (String × PromptDefinition)) (checks : List CheckDefinition)
    (pout : List (String × PromptDefinition)),
    loaderParseChecks cs prompts = .ok (checks, pout) →
    (∃ suffix, pout = prompts ++ suffix) ∧
    ∀ ch ∈ checks, (aget pout ch.prompt_id).isSome = true := by
  intro cs
  induction cs with
  | nil =>
    intro prompts checks pout h
    rw [loaderParseChecks] at h
    injection h with h
    injection h with h1 h2
    subst h1
    subst h2
    exact ⟨⟨[], by simp⟩, by simp⟩
  | cons c rest ih =>
    intro prompts checks pout h
    rw [loaderParseChecks] at h
    split at h
    · cases hpid : c.prompt_id with
      | some pid =>
        simp only [hpid] at h
        split at h
        · simp at h
        next hni =>
          split at h
          · simp at h
          next tl pout' hrec =>
            injection h with h
            injection h with h1 h2
            subst h1
            subst h2
            obtain ⟨⟨suffix, hsfx⟩, hres⟩ := ih _ _ _ hrec
            refine ⟨⟨suffix, hsfx⟩, fun ch hch => ?_⟩
            rcases List.mem_cons.mp hch with hhd | htl
            · subst hhd
              rw [hsfx]
              exact aget_append_isSome _ _ _ (isSome_of_not_isNone hni)
            · exact hres ch htl
      | none =>
        cases hsp : c.system_prompt with
        | some sp =>
          simp only [hpid, hsp] at h
          split at h
          · simp at h
          next hni =>
            split at h
            · simp at h
            next tl pout' hrec =>
              injection h with h
              injection h with h1 h2
              subst h1
              subst h2
              obtain ⟨⟨suffix, hsfx⟩, hres⟩ := ih _ _ _ hrec
              refine ⟨⟨[("inline_" ++ c.id, ⟨"inline_" ++ c.id, sp⟩)] ++ suffix,
                by rw [hsfx, List.append_assoc]⟩, fun ch hch => ?_⟩
              rcases List.mem_cons.mp hch with hhd | htl
              · subst hhd
                rw [hsfx]
                exact aget_append_isSome _ _ _ (isSome_of_not_isNone hni)
              · exact hres ch htl
        | none =>
          simp only [hpid, hsp] at h
          simp at h
    · simp at h

theorem loaderValidateCtxIds_sound : ∀ (ids : List String) (checkId : String)
    (defs : List (String × ContextDefinition)),
    loaderValidateCtxIds checkId defs ids = .ok () →
    ∀ cid ∈ ids, (aget defs cid).isSome = true := by
  intro ids
  induction ids with
  | nil => intro checkId defs _ cid hc; simp at hc
  | cons cid rest ih =>
    intro checkId defs h c hc
    rw [loaderValidateCtxIds] at h
    by_cases hs : (aget defs cid).isSome = true
    · rw [if_pos hs] at h
      rcases List.mem_cons.mp hc with h1 | h2
      · subst h1; exact hs
      · exact ih checkId defs h c h2
    · rw [if_neg hs] at h
      simp at h

theorem loaderValidateRefs_sound : ∀ (checks : List CheckDefinition)
    (defs : List (String × ContextDefinition)),
    loaderValidateRefs defs checks = .ok () →
    ∀ ch ∈ checks, ∀ cid ∈ ch.context_ids, (aget defs cid).isSome = true := by
  intro checks
  induction checks with
  | nil => intro defs _ ch hch; simp at hch
  | cons ch rest ih =>
    intro defs h c hc
    rw [loaderValidateRefs] at h
    cases hv : loaderValidateCtxIds ch.id defs ch.context_ids with
    | error e => rw [hv] at h; simp at h
    | ok u =>
      rw [hv] at h
      rcases List.mem_cons.mp hc with h1 | h2
      · subst h1
        cases u
        exact loaderValidateCtxIds_sound _ _ _ hv
      · exact ih defs h c h2

theorem loaderParse_ok (raw : RawConfig) (fs : String → Option String) (cfg : Config)
    (h : loaderParse raw fs = .ok cfg) :
    (∀ ch ∈ cfg.checks, (aget cfg.prompts ch.prompt_id).isSome = true) ∧
    (∀ ch ∈ cfg.checks, ∀ cid ∈ ch.context_ids, (aget cfg.definitions cid).isSome = true) := by
  rw [loaderParse] at h
  split at h
  · simp at h
  next defs hdefs =>
    split at h
    · simp at h
    next prompts hprompts =>
      split at h
      · simp at h
      next checks pout hcp =>
        split at h
        · simp at h
        next u hval =>
          injection h with h
          subst h
          refine ⟨fun ch hch => ?_, fun ch hch cid hcid => ?_⟩
          · exact (loaderParseChecks_resolve _ _ _ _ hcp).2 ch hch
          · cases u
            exact loaderValidateRefs_sound _ _ hval ch hch cid hcid

/-- A check with neither prompt source fails loading, with the offending
check id in the message. -/
theorem loaderParseChecks_missing (c : RawCheck) (rest : List RawCheck)
    (prompts : List (String × PromptDefinition))
    (hpid : c.prompt_id = none) (hsp : c.system_prompt = none)
    (hkeys : c.extraKeys.filter (fun k => !(loaderCheckValidKeys.contains k)) = []) :
    loaderParseChecks (c :: rest) prompts
      = .error ("Check '" ++ c.id ++ "' is missing 'prompt_id' or 'system_prompt'.") := by
  rw [loaderParseChecks, hkeys]
  simp only [hpid, hsp]

/-! ### Every prompt of the `prompts` section requests JSON -/

theorem pyContains_append_right (x y pat : List Char) (h : containsL y pat = true) :
    containsL (x ++ y) pat = true :=
  containsL_suffix pat (x ++ y) y (List.suffix_append x y) h

theorem loaderParsePrompts_json (fs : String → Option String) :
    ∀ (ps : List RawPrompt) (out : List (String × PromptDefinition)),
    loaderParsePrompts fs ps = .ok out →
    ∀ p ∈ out, pyContains p.2.text "JSON" = true := by
  intro ps
  induction ps with
  | nil =>
    intro out h p hp
    rw [loaderParsePrompts] at h
    injection h with h
    subst h
    simp at hp
  | cons q rest ih =>
    intro out h p hp
    rw [loaderParsePrompts] at h
    split at h
    · split at h
      · simp at h
      next t0 ht0 =>
        cases hX : loaderParsePrompts fs rest with
        | error e => rw [hX] at h; simp [Except.map] at h
        | ok tl =>
          rw [hX] at h
          simp only [Except.map] at h
          injection h with h
          subst h
          rcases List.mem_cons.mp hp with h1 | h2
          · subst h1
            show pyContains (if pyContains t0 "JSON" = true then t0 else t0 ++ jsonInstr)
              "JSON" = true
            by_cases hj : pyContains t0 "JSON" = true
            · rw [if_pos hj]
              exact hj
            · rw [if_neg hj, pyContains, String.data_append]
              exact pyContains_append_right _ _ _ (by decide)
          · exact ih tl hX p h2
    · simp at h

/-! ### Provider routing and caching -/

theorem aget_single {α : Type} (k k' : String) (v : α) :
    aget [(k, v)] k' = if k = k' then some v else none := rfl

theorem factoryInv_init (dry : Bool) : FactoryInv (initFactory dry) := by
  intro k p h
  simp [initFactory, aget] at h

theorem getInstance_inv (key : String) (st : FactoryState) (h : FactoryInv st) :
    FactoryInv (getInstance key st).2 ∧ (getInstance key st).1.1 = registryLookup key := by
  cases hc : aget st.instances key with
  | some inst =>
    rw [getInstance, hc]
    exact ⟨h, h key inst hc⟩
  | none =>
    rw [getInstance, hc]
    constructor
    · intro k' p' hp'
      simp only at hp'
      rw [aget_append, aget_single] at hp'
      by_cases hk : key = k'
      · subst hk
        simp at hp'
        rw [← hp']
      · rw [if_neg hk] at hp'
        simp at hp'
        exact h k' p' hp'
    · rfl

theorem getInstance_dry (key : String) (st : FactoryState) :
    (getInstance key st).2.is_dry_run = st.is_dry_run := by
  rw [getInstance]
  cases hc : aget st.instances key <;> rfl

theorem getProvider_inv (m : String) (st : FactoryState) (h : FactoryInv st)
    (hdry : st.is_dry_run = false) :
    FactoryInv (getProvider m st).2
      ∧ (getProvider m st).1.1 = registryLookup (resolveProviderKey m) := by
  rw [getProvider, if_neg (by simp [hdry])]
  exact getInstance_inv _ _ h

theorem getProvider_dry (m : String) (st : FactoryState) :
    (getProvider m st).2.is_dry_run = st.is_dry_run := by
  rw [getProvider]
  split <;> exact getInstance_dry _ _

theorem applyCalls_inv (models : List String) : ∀ st : FactoryState, FactoryInv st →
    FactoryInv (applyCalls st models)
      ∧ (applyCalls st models).is_dry_run = st.is_dry_run := by
  induction models with
  | nil => intro st h; exact ⟨h, rfl⟩
  | cons m ms ih =>
    intro st h
    have hinv2 : FactoryInv (getProvider m st).2 := by
      rw [getProvider]
      split
      · exact (getInstance_inv _ _ h).1
      · exact (getInstance_inv _ _ h).1
    obtain ⟨h1, h2⟩ := ih _ hinv2
    refine ⟨h1, ?_⟩
    rw [show applyCalls st (m :: ms) = applyCalls (getProvider m st).2 ms from rfl, h2,
      getProvider_dry]

theorem getInstance_cached (key : String) (st : FactoryState) :
    getInstance key (getInstance key st).2
      = ((getInstance key st).1, (getInstance key st).2) := by
  cases hc : aget st.instances key with
  | some inst =>
    have h1 : (getInstance key st).1 = inst := by rw [getInstance, hc]
    have h2 : (getInstance key st).2 = st := by rw [getInstance, hc]
    rw [h1, h2, getInstance, hc]
  | none =>
    have h1 : (getInstance key st).1 = (registryLookup key, st.next_ctor) := by
      rw [getInstance, hc]
    have h2 : (getInstance key st).2
        = ⟨st.is_dry_run, st.instances ++ [(key, (registryLookup key, st.next_ctor))],
           st.next_ctor + 1⟩ := by
      rw [getInstance, hc]
    rw [h1, h2]
    simp [getInstance, aget_append_single]

theorem getProvider_cached (m m' : String) (st : FactoryState)
    (hkey : resolveProviderKey m' = resolveProviderKey m)
    (hdry : st.is_dry_run = false) :
    getProvider m' (getProvider m st).2 = ((getProvider m st).1, (getProvider m st).2) := by
  have hdry2 : (getProvider m st).2.is_dry_run = false := by
    rw [getProvider_dry, hdry]
  rw [getProvider, if_neg (by simp [hdry2]), hkey,
      show getProvider m st = getInstance (resolveProviderKey m) st from by
        rw [getProvider, if_neg (by simp [hdry])]]
  exact getInstance_cached _ _

theorem registry_claude (m : String) (h : pyStartsWith m "claude" = true) :
    registryLookup (resolveProviderKey m) = AdapterKind.anthropic := by
  rw [resolveProviderKey, if_pos h]
  rfl

theorem registry_gemini (m : String) (h1 : pyStartsWith m "claude" = false)
    (h2 : pyStartsWith m "gemini" = true) :
    registryLookup (resolveProviderKey m) = AdapterKind.gemini := by
  rw [resolveProviderKey, if_neg (by simp [h1]), if_pos h2]
  rfl

theorem registry_default (m : String) (h1 : pyStartsWith m "claude" = false)
    (h2 : pyStartsWith m "gemini" = false) :
    registryLookup (resolveProviderKey m) = AdapterKind.openai := by
  rw [resolveProviderKey, if_neg (by simp [h1]), if_neg (by simp [h2])]
  rfl

/-! ### File filtering as a `List.filter` -/

theorem filterFiles_eq_filter : ∀ (files inc exc : List String),
    filterFiles files inc exc
      = files.filter (fun f => (inc.isEmpty || inc.any (fun p => fnmatch f p))
          && !(exc.any (fun p => fnmatch f p))) := by
  intro files inc exc
  induction files with
  | nil => rfl
  | cons f rest ih =>
    rw [filterFiles, List.filter_cons]
    cases hinc : inc.isEmpty <;> cases hany : inc.any (fun p => fnmatch f p) <;>
      cases hexc : exc.any (fun p => fnmatch f p) <;>
      simp [hinc, hany, hexc, ih]

/-! ## The claims -/

/-- C1: a response that no strategy parses — not valid JSON as a whole, no
parsable fenced block, no parsable first-to-last-brace slice — makes the
engine's parser return the `MANUAL` fallback verdict carrying the raw text;
its status is never `PASS`. -/
theorem C1_parser_safe_default (cs : List Char)
    (h1 : loadsL cs = none)
    (h2 : ∀ g, fencedSearch cs = some g → loadsL g = none)
    (h3 : ∀ s, bruteSlice cs = some s → loadsL s = none) :
    parseJsonResponseL cs = .ok ⟨"MANUAL", .str (String.mk cs), .arr []⟩ := by
  cases hf : fencedSearch cs with
  | some g =>
    have hg := h2 g hf
    cases hb : bruteSlice cs with
    | some s => simp only [parseJsonResponseL, h1, hf, hg, hb, h3 s hb]
    | none => simp only [parseJsonResponseL, h1, hf, hg, hb]
  | none =>
    cases hb : bruteSlice cs with
    | some s => simp only [parseJsonResponseL, h1, hf, hb, h3 s hb]
    | none => simp only [parseJsonResponseL, h1, hf, hb]

/-- C1, witnessed on the unparseable reply `I refuse.`. -/
theorem C1_witness :
    parseJsonResponseL "I refuse.".data
      = .ok ⟨"MANUAL", .str "I refuse.", .arr []⟩ := by
  have h := C1_parser_safe_default "I refuse.".data rfl
    (fun g hg => by
      rw [show fencedSearch "I refuse.".data = none from rfl] at hg
      cases hg)
    (fun s hs => by
      rw [show bruteSlice "I refuse.".data = none from rfl] at hs
      cases hs)
  exact h

/-- C1, refuted for the legacy parser the claim also cites: on the same
unparseable reply, `core.py` assumes `PASS`. -/
theorem C1_counterexample :
    loadsL "I refuse.".data = none ∧
    fencedSearch "I refuse.".data = none ∧
    bruteSlice "I refuse.".data = none ∧
    statusOf (coreParseJsonResponse "I refuse.") = some (Json.str "PASS") :=
  ⟨rfl, rfl, rfl, rfl⟩

/-- C2: with every referenced context resolving to a runnable command whose
output is non-blank, the engine's `build_context` returns the formatted
blocks whenever the raw character total fits the limit, and aborts with a
`CommandError` whenever the raw total exceeds it — accounting is on raw
output, and no truncated context is ever returned. -/
theorem C2_build_context_fail_safe (cfg : Config)
    (run : String → List String → List String → Except String String)
    (check : CheckDefinition) (outs : List (String × String))
    (hf : List.Forall₂ (fun cid p => ∃ d, aget cfg.definitions cid = some d ∧ d.tag = p.1 ∧
        run d.cmd check.include_patterns check.exclude_patterns = .ok p.2 ∧
        ¬ pyStrip p.2 = "") check.context_ids outs) :
    (rawTotal outs ≤ check.max_chars →
        buildContext cfg run check = .ok (joinedBlocks outs)) ∧
    (0 ≤ check.max_chars → rawTotal outs > check.max_chars →
        ∃ e, buildContext cfg run check = .error e) :=
  buildContext_spec cfg run check outs hf

/-- C2, witnessed on a one-context configuration within budget. -/
theorem C2_witness :
    buildContext ⟨[("d1", ⟨"d1", "T", "c1"⟩)], [], []⟩ (fun _ _ _ => .ok "abc")
      ⟨"chk", "p", "m", ["d1"], 100, [], []⟩ = .ok (joinedBlocks [("T", "abc")]) :=
  (C2_build_context_fail_safe ⟨[("d1", ⟨"d1", "T", "c1"⟩)], [], []⟩ (fun _ _ _ => .ok "abc")
      ⟨"chk", "p", "m", ["d1"], 100, [], []⟩ [("T", "abc")]
      (List.Forall₂.cons ⟨⟨"d1", "T", "c1"⟩, rfl, rfl, rfl, by decide⟩
        List.Forall₂.nil)).1 (by decide)

/-- C2, refuted for the legacy `build_context` the claim also cites: an
8-character output against a 5-character limit is silently truncated and
returned, not aborted. -/
theorem C2_counterexample :
    ((8 : Int) > 5) ∧
    coreBuildContext ⟨[("d1", ⟨"d1", "T", "c1"⟩)], [], []⟩ (fun _ => .ok "12345678")
      ⟨"chk", "p", "m", ["d1"], 5⟩
      = .ok "### Context: T\n```text\n12345\n... [TRUNCATED]\n```\n" :=
  ⟨by decide, rfl⟩

/-- C3: the current loader is strict — a loaded configuration's checks all
resolve their prompt and context references, and a check with neither
`prompt_id` nor `system_prompt` fails loading with the offending check id
in the message; no default prompt is synthesized. -/
theorem C3_loader_strict :
    (∀ (raw : RawConfig) (fs : String → Option String) (cfg : Config),
        loaderParse raw fs = .ok cfg →
        ∀ ch ∈ cfg.checks, (aget cfg.prompts ch.prompt_id).isSome = true ∧
          ∀ cid ∈ ch.context_ids, (aget cfg.definitions cid).isSome = true) ∧
    (∀ (c : RawCheck) (rest : List RawCheck) (prompts : List (String × PromptDefinition)),
        c.prompt_id = none → c.system_prompt = none →
        c.extraKeys.filter (fun k => !(loaderCheckValidKeys.contains k)) = [] →
        loaderParseChecks (c :: rest) prompts
          = .error ("Check '" ++ c.id ++ "' is missing 'prompt_id' or 'system_prompt'.")) := by
  constructor
  · intro raw fs cfg h ch hch
    obtain ⟨h1, h2⟩ := loaderParse_ok raw fs cfg h
    exact ⟨h1 ch hch, h2 ch hch⟩
  · exact loaderParseChecks_missing

/-- C3, witnessed on a resolving configuration and on a check lacking both
prompt sources. -/
theorem C3_witness :
    ((aget [("p1", (⟨"p1", "hi" ++ jsonInstr⟩ : PromptDefinition))] "p1").isSome = true ∧
      ∀ cid ∈ ["d1"],
        (aget [("d1", (⟨"d1", "T", "internal:push_diff"⟩ : ContextDefinition))] cid).isSome
          = true) ∧
    loaderParseChecks [⟨"c1", none, none, none, none, none, none, none, []⟩] []
      = .error ("Check '" ++ "c1" ++ "' is missing 'prompt_id' or 'system_prompt'.") := by
  constructor
  · exact C3_loader_strict.1
      ⟨[⟨"d1", some "T", "internal:push_diff", []⟩], [⟨"p1", some "hi", none, []⟩],
       [⟨"c1", some "p1", none, none, some (RawContext.str "d1"), none, none, none, []⟩]⟩
      (fun _ => none)
      ⟨[("d1", ⟨"d1", "T", "internal:push_diff"⟩)], [("p1", ⟨"p1", "hi" ++ jsonInstr⟩)],
       [⟨"c1", "p1", "gpt-3.5-turbo", ["d1"], 16000, [], []⟩]⟩
      rfl ⟨"c1", "p1", "gpt-3.5-turbo", ["d1"], 16000, [], []⟩ (by simp)
  · exact C3_loader_strict.2 ⟨"c1", none, none, none, none, none, none, none, []⟩ [] []
      rfl rfl rfl

/-- C3, refuted for the legacy `Config.from_dict` the claim also cites: a
check with neither prompt source silently receives a synthesized
`basic_reviewer` default prompt. -/
theorem C3_counterexample :
    coreFromDict ⟨[], [], [⟨"c1", none, none, none, none, none, none, none, []⟩]⟩
      (fun _ => none)
      = .ok ⟨[], [("basic_reviewer", ⟨"basic_reviewer", coreDefaultReviewerText⟩)],
             [⟨"c1", "basic_reviewer", "gpt-3.5-turbo", [], 16000⟩]⟩ := rfl

/-- C4: a check whose every resolved context command yields blank output is
reported as a skipped pass, and the provider is never consulted. -/
theorem C4_empty_context_skips (cfg : Config) (deps : EngineDeps) (checkId : String)
    (check : CheckDefinition)
    (hfind : cfg.checks.find? (fun c => c.id = checkId) = some check)
    (hblank : ∀ cid ∈ check.context_ids, ∀ d, aget cfg.definitions cid = some d →
        ∃ out, deps.run d.cmd check.include_patterns check.exclude_patterns = .ok out ∧
          pyStrip out = "") :
    runCheck cfg deps checkId none = .ok ⟨true, true, false⟩ := by
  have hctx : buildContext cfg deps.run check = .ok "" := by
    rw [buildContext, buildContextGo_blank cfg deps.run check check.context_ids 0 [] hblank]
    rfl
  rw [runCheck]
  simp only [hfind, hctx]
  rw [runCheckAfter.eq_def, if_pos (show pyStrip "" = "" from rfl)]

/-- C4, witnessed on a configuration whose single context emits only
whitespace. -/
theorem C4_witness :
    runCheck ⟨[("d1", ⟨"d1", "T", "c1"⟩)], [("p1", ⟨"p1", "x"⟩)],
        [⟨"c1", "p1", "m", ["d1"], 100, [], []⟩]⟩
      ⟨fun _ _ _ => .ok "  ", fun _ _ => "unused"⟩ "c1" none
      = .ok ⟨true, true, false⟩ :=
  C4_empty_context_skips _ _ "c1" ⟨"c1", "p1", "m", ["d1"], 100, [], []⟩ rfl
    (fun _ _ _ _ => ⟨"  ", rfl, by decide⟩)

/-- C5: an encoded verdict object parses to its normalization when given
whole; and — provided its encoding contains no fence delimiter, the
surrounding filler is brace- and backtick-free, and the framed text is not
itself valid JSON — also when fenced or embedded. -/
theorem C5_roundtrip_presentations (ms : List (String × Json)) :
    parseJsonResponseL (dump (Json.obj ms)) = normalizeResult (Json.obj ms) ∧
    (hasTriple (dump (Json.obj ms)) = false →
      parseJsonResponseL (fencedWrap (dump (Json.obj ms))) = normalizeResult (Json.obj ms)) ∧
    (∀ pre post : List Char, plainFiller pre = true → plainFiller post = true →
      hasTriple (dump (Json.obj ms)) = false →
      loadsL (pre ++ (dump (Json.obj ms) ++ post)) = none →
      parseJsonResponseL (pre ++ (dump (Json.obj ms) ++ post))
        = normalizeResult (Json.obj ms)) :=
  ⟨parse_whole _, parse_fenced ms, parse_embedded ms⟩

/-- C5, witnessed on `\x7b"status": "PASS"\x7d` in all three presentations. -/
theorem C5_witness :
    parseJsonResponseL (dump (Json.obj [("status", Json.str "PASS")]))
      = normalizeResult (Json.obj [("status", Json.str "PASS")]) ∧
    parseJsonResponseL (fencedWrap (dump (Json.obj [("status", Json.str "PASS")])))
      = normalizeResult (Json.obj [("status", Json.str "PASS")]) ∧
    parseJsonResponseL
        ("Verdict: ".data ++ (dump (Json.obj [("status", Json.str "PASS")]) ++ " end".data))
      = normalizeResult (Json.obj [("status", Json.str "PASS")]) := by
  obtain ⟨h1, h2, h3⟩ := C5_roundtrip_presentations [("status", Json.str "PASS")]
  exact ⟨h1, h2 (by decide),
    h3 "Verdict: ".data " end".data (by decide) (by decide) (by decide) rfl⟩

/-- C5, refuted as stated: a `PASS` verdict whose field value contains a
fenced snippet, embedded so that it is the first-to-last-brace slice,
parses through the fenced-block strategy to a `FAIL` verdict instead of
its normalization. -/
theorem C5_counterexample :
    bruteSlice ("x" ++ dumps (Json.obj [("status", Json.str "PASS"),
        ("a", Json.str "``` \x7b\x7d ```")])).data
      = some (dumps (Json.obj [("status", Json.str "PASS"),
        ("a", Json.str "``` \x7b\x7d ```")])).data ∧
    parseJsonResponse ("x" ++ dumps (Json.obj [("status", Json.str "PASS"),
        ("a", Json.str "``` \x7b\x7d ```")]))
      = .ok ⟨"FAIL", .str "No feedback", .arr []⟩ ∧
    normalizeResult (Json.obj [("status", Json.str "PASS"),
        ("a", Json.str "``` \x7b\x7d ```")])
      = .ok ⟨"PASS", .str "No feedback", .arr []⟩ :=
  ⟨rfl, rfl, rfl⟩

/-- C6: model names beginning `claude` route to the Anthropic adapter,
names beginning `gemini` to the Gemini adapter, anything else to the
OpenAI default; and a second call resolving to the same key returns the
cached instance, leaving the factory state untouched. -/
theorem C6_routing_and_cache (models : List String) (m m' : String) :
    (pyStartsWith m "claude" = true →
        (getProvider m (applyCalls (initFactory false) models)).1.1
          = AdapterKind.anthropic) ∧
    (pyStartsWith m "claude" = false → pyStartsWith m "gemini" = true →
        (getProvider m (applyCalls (initFactory false) models)).1.1
          = AdapterKind.gemini) ∧
    (pyStartsWith m "claude" = false → pyStartsWith m "gemini" = false →
        (getProvider m (applyCalls (initFactory false) models)).1.1
          = AdapterKind.openai) ∧
    (resolveProviderKey m' = resolveProviderKey m →
        getProvider m' (getProvider m (applyCalls (initFactory false) models)).2
          = ((getProvider m (applyCalls (initFactory false) models)).1,
             (getProvider m (applyCalls (initFactory false) models)).2)) := by
  obtain ⟨hinv, hdry⟩ := applyCalls_inv models (initFactory false) (factoryInv_init false)
  have hdry' : (applyCalls (initFactory false) models).is_dry_run = false := by
    rw [hdry]
    rfl
  have hkind := (getProvider_inv m _ hinv hdry').2
  refine ⟨fun h => ?_, fun h1 h2 => ?_, fun h1 h2 => ?_, fun hk => ?_⟩
  · rw [hkind, registry_claude m h]
  · rw [hkind, registry_gemini m h1 h2]
  · rw [hkind, registry_default m h1 h2]
  · exact getProvider_cached m m' _ hk hdry'

/-- C6, witnessed on `claude-3`, `gemini-pro` and `gpt-4`, with a cache hit
for a second claude-keyed call. -/
theorem C6_witness :
    (getProvider "claude-3" (applyCalls (initFactory false) [])).1.1
      = AdapterKind.anthropic ∧
    (getProvider "gemini-pro" (applyCalls (initFactory false) [])).1.1
      = AdapterKind.gemini ∧
    (getProvider "gpt-4" (applyCalls (initFactory false) [])).1.1
      = AdapterKind.openai ∧
    getProvider "claude-3.5" (getProvider "claude-3" (applyCalls (initFactory false) [])).2
      = ((getProvider "claude-3" (applyCalls (initFactory false) [])).1,
         (getProvider "claude-3" (applyCalls (initFactory false) [])).2) :=
  ⟨(C6_routing_and_cache [] "claude-3" "claude-3.5").1 (by decide),
   (C6_routing_and_cache [] "gemini-pro" "x").2.1 (by decide) (by decide),
   (C6_routing_and_cache [] "gpt-4" "x").2.2.1 (by decide) (by decide),
   (C6_routing_and_cache [] "claude-3" "claude-3.5").2.2.2 (by decide)⟩

/-- C7: with the backend client missing, each adapter's `analyze` returns —
rather than raises — a JSON-encoded `FAIL` verdict naming the unavailable
backend. -/
theorem C7_offline_fail_verdicts (model msg : String) :
    openaiAnalyze none model msg = openaiUnavailable ∧
    anthropicAnalyze none model msg = anthropicUnavailable ∧
    geminiAnalyze none model msg = geminiUnavailable ∧
    loads openaiUnavailable = some (Json.obj [("status", Json.str "FAIL"),
      ("reason", Json.str "OpenAI client not ready (Check OPENAI_API_KEY)")]) ∧
    loads anthropicUnavailable = some (Json.obj [("status", Json.str "FAIL"),
      ("reason", Json.str "Anthropic client not ready")]) ∧
    loads geminiUnavailable = some (Json.obj [("status", Json.str "FAIL"),
      ("reason", Json.str "Google GenAI client not ready (Check GOOGLE_API_KEY)")]) :=
  ⟨rfl, rfl, rfl, rfl, rfl, rfl⟩

/-- C8: every prompt parsed from the `prompts` section mentions `JSON`
(the loader appends the instruction otherwise); a per-check inline
`system_prompt`, however, is stored verbatim. -/
theorem C8_prompts_json_invariant :
    (∀ (fs : String → Option String) (ps : List RawPrompt)
        (out : List (String × PromptDefinition)),
      loaderParsePrompts fs ps = .ok out →
      ∀ p ∈ out, pyContains p.2.text "JSON" = true) ∧
    (∀ (c : RawCheck) (prompts : List (String × PromptDefinition)) (sp : String),
      c.prompt_id = none → c.system_prompt = some sp →
      c.extraKeys.filter (fun k => !(loaderCheckValidKeys.contains k)) = [] →
      loaderParseChecks [c] prompts
        = .ok ([⟨c.id, "inline_" ++ c.id, c.model.getD "gpt-3.5-turbo",
              (match c.context with
               | none => []
               | some (.str s) => [s]
               | some (.list l) => l),
              c.max_chars.getD 16000, c.include_patterns.getD [],
              c.exclude_patterns.getD []⟩],
            prompts ++ [("inline_" ++ c.id, ⟨"inline_" ++ c.id, sp⟩)])) := by
  constructor
  · exact fun fs => loaderParsePrompts_json fs
  · intro c prompts sp hpid hsp hkeys
    rw [loaderParseChecks, hkeys]
    simp only [hpid, hsp]
    have hsome : (aget (prompts ++ [("inline_" ++ c.id,
        (⟨"inline_" ++ c.id, sp⟩ : PromptDefinition))]) ("inline_" ++ c.id)).isNone
        = false := by
      rw [aget_append_single]
      rfl
    rw [if_neg (by simp [hsome]), loaderParseChecks]

/-- C8, witnessed on a prompt lacking `JSON` (instruction appended) and an
inline check prompt (stored verbatim). -/
theorem C8_witness :
    pyContains (("p1", (⟨"p1", "be nice" ++ jsonInstr⟩ : PromptDefinition)).2.text)
      "JSON" = true ∧
    loaderParseChecks [⟨"c1", none, some "Be concise.", none, none, none, none, none, []⟩] []
      = .ok ([⟨"c1", "inline_c1", "gpt-3.5-turbo", [], 16000, [], []⟩],
             [("inline_c1", ⟨"inline_c1", "Be concise."⟩)]) := by
  constructor
  · exact C8_prompts_json_invariant.1 (fun _ => none) [⟨"p1", some "be nice", none, []⟩]
      [("p1", ⟨"p1", "be nice" ++ jsonInstr⟩)] rfl
      ("p1", ⟨"p1", "be nice" ++ jsonInstr⟩) (by simp)
  · exact C8_prompts_json_invariant.2
      ⟨"c1", none, some "Be concise.", none, none, none, none, none, []⟩ [] "Be concise."
      rfl rfl rfl

/-- C8, refuted as stated: a configuration whose check carries an inline
`system_prompt` loads successfully with that prompt stored in the prompts
map without any `JSON` substring. -/
theorem C8_counterexample :
    loaderParse ⟨[], [], [⟨"c1", none, some "Be concise.", none, none, none, none, none, []⟩]⟩
      (fun _ => none)
      = .ok ⟨[], [("inline_c1", ⟨"inline_c1", "Be concise."⟩)],
             [⟨"c1", "inline_c1", "gpt-3.5-turbo", [], 16000, [], []⟩]⟩ ∧
    pyContains "Be concise." "JSON" = false :=
  ⟨rfl, rfl⟩

/-- C9: the file filter keeps exactly the files passing the include gate
(no include patterns, or some match) and failing every exclude pattern, in
order — it is a `List.filter`. -/
theorem C9_filter_semantics (files inc exc : List String) :
    filterFiles files inc exc
      = files.filter (fun f => (inc.isEmpty || inc.any (fun p => fnmatch f p))
          && !(exc.any (fun p => fnmatch f p))) :=
  filterFiles_eq_filter files inc exc

/-- C10: a parsed verdict whose normalized status is neither `PASS` nor
`FAIL` nor `FIX` — `MANUAL` included — still passes the check: only `FAIL`
and `FIX` block. -/
theorem C10_only_fail_fix_block (deps : EngineDeps) (check : CheckDefinition)
    (pd : PromptDefinition) (context : String) (r : NormResult)
    (hctx : ¬ pyStrip context = "")
    (hr : parseJsonResponseL
        (deps.analyze check.model (pd.text ++ "\n\n" ++ context)).data = .ok r)
    (hpass : r.status ≠ "PASS") (hfail : r.status ≠ "FAIL") (hfix : r.status ≠ "FIX") :
    runCheckAfter deps check (some pd) context = .ok ⟨true, false, true⟩ := by
  rw [runCheckAfter, if_neg hctx]
  simp only [hr]
  rw [if_neg hpass, if_neg hfail, if_neg hfix]

/-- C10, witnessed on a model reply with status `MANUAL`. -/
theorem C10_witness :
    runCheckAfter ⟨fun _ _ _ => .ok "", fun _ _ => "\x7b\"status\": \"MANUAL\"\x7d"⟩
      ⟨"c", "p", "m", [], 100, [], []⟩ (some ⟨"p", "sys"⟩) "ctx"
      = .ok ⟨true, false, true⟩ :=
  C10_only_fail_fix_block ⟨fun _ _ _ => .ok "", fun _ _ => "\x7b\"status\": \"MANUAL\"\x7d"⟩
    ⟨"c", "p", "m", [], 100, [], []⟩ ⟨"p", "sys"⟩ "ctx"
    ⟨"MANUAL", .str "No feedback", .arr []⟩
    (by decide) rfl (by decide) (by decide) (by decide)

end Aireview
